import Mathlib

/-!
Verification of the ApolloR CDM-processing core against its specification.

This file gives a shallow embedding, in Lean 4, of the algorithmic core of the
ApolloR python sources:

* `_create_interval_token`, `days_to_weeks`, `days_to_months` and
  `_process_observation_period` from `cdm_processing/cehr_bert_cdm_processor.py`;
* `get_date_of_birth` (both the Series variant in
  `cdm_processing/cdm_processor_utils.py` and the DataFrame variant in
  `cdm_processor_utils.py`), `group_by_visit`, `union_domain_tables` and the
  drug-to-ingredient remapping join;
* the per-partition merge-join `_process_partition` and the per-person row-group
  reader `_create_table_iterator` from `cdm_processing/abstract_cdm_processor.py`.

Conventions of the embedding:

* calendar dates are integers (days since 1970-01-01), so python date
  subtraction `(a - b).days` becomes integer subtraction;
* pandas `NaN` / missing values are `Option.none`;
* a pandas DataFrame is a `List` of row structures, in row order;
* python exceptions are `Except String`;
* `np.piecewise(x, condlist, funclist)` is embedded by `npPiecewise`:
  numpy assigns `y[cond] = val` for each condition in order, so a later true
  condition overwrites an earlier one, and the appended default value is
  applied where no condition holds.
-/

/-! ## Interval tokens (`cehr_bert_cdm_processor.py`, lines 21-36) -/

/-- `_create_interval_token(days)`.  `math.floor(days / 7)` on an `int` is
floor division, i.e. `Int.fdiv`. -/
def _create_interval_token (days : Int) : String :=
  if days < 0 then "W-1"
  else if days < 28 then "W" ++ toString (Int.fdiv days 7)
  else if days < 360 then "M" ++ toString (Int.fdiv days 30)
  else "LT"

/-- `days_to_weeks(days) = math.floor(days / 7)`. -/
def days_to_weeks (days : Int) : Int := Int.fdiv days 7

/-- `days_to_months(days) = math.floor(days / 30.5)`; `days / 30.5 = 2*days/61`
exactly, so the floor is `Int.fdiv (2 * days) 61`. -/
def days_to_months (days : Int) : Int := Int.fdiv (2 * days) 61

/-! ## Date of birth (`cdm_processor_utils.py`, both variants) -/

/-- One row of the `person` table: `person_id`, `year_of_birth` and the
possibly-missing (`NaN`) `month_of_birth` / `day_of_birth` columns. -/
structure PersonRow where
  person_id : Int
  year_of_birth : Int
  month_of_birth : Option Int
  day_of_birth : Option Int
deriving DecidableEq, Repr

/-- A year-month-day date as assembled by `dt.date(year, month, day)`. -/
structure Date3 where
  year : Int
  month : Int
  day : Int
deriving DecidableEq, Repr

/-- `get_date_of_birth(person)` from `cdm_processing/cdm_processor_utils.py`
(lines 159-173): the argument is a single row (a Series); a missing month or
day is replaced by 1. -/
def get_date_of_birth (p : PersonRow) : Date3 :=
  let month := match p.month_of_birth with | none => (1 : Int) | some m => m
  let day := match p.day_of_birth with | none => (1 : Int) | some d => d
  ⟨p.year_of_birth, month, day⟩

/-- `get_date_of_birth(person)` from the top-level `cdm_processor_utils.py`
(lines 121-136): the argument is a DataFrame; a shape other than one row
raises `Exception(f"Expecting person to have 1 row, but found {n} rows")`,
otherwise the first (only) row is used. -/
def get_date_of_birth_df (person : List PersonRow) : Except String Date3 :=
  if person.length ≠ 1 then
    Except.error ("Expecting person to have 1 row, but found "
      ++ toString person.length ++ " rows")
  else
    match person with
    | p :: _ => Except.ok (get_date_of_birth p)
    | [] => Except.error "Expecting person to have 1 row, but found 0 rows"

/-- The person lookup on the CEHR-BERT path
(`cehr_bert_cdm_processor.py`, line 64):
`cpu.get_date_of_birth(person=cdm_tables[PERSON].iloc[0])`.
`iloc[0]` raises `IndexError` on an empty frame and silently takes the first
row of a multi-row frame; no cardinality check is made. -/
def cehrBertDateOfBirth (persons : List PersonRow) : Except String Date3 :=
  match persons with
  | [] => Except.error "IndexError"
  | p :: _ => Except.ok (get_date_of_birth p)

/-! ## The table stream reader (`abstract_cdm_processor.py`, lines 131-161) -/

/-- One row of a partitioned CDM table file, keyed by `person_id`; the other
columns are abstracted into a single payload value. -/
structure SourceRow where
  pid : Int
  val : Int
deriving DecidableEq, Repr

/-- Deduplication keeping the first occurrence of each value, as
`pandas.Series.unique` does. -/
def dedupFirst (l : List Int) : List Int :=
  l.foldl (fun acc d => if acc.contains d then acc else acc ++ [d]) []

/-- A stable insertion of `x` into a list: `x` is placed before the first
element that is not strictly below it. -/
def insertSorted {α : Type} (lt : α → α → Bool) (x : α) : List α → List α
  | [] => [x]
  | y :: ys => if lt y x then y :: insertSorted lt x ys else x :: y :: ys

/-- A stable sort (insertion sort).  A stable sort is unique, so this agrees
with python's stable `list.sort` / Timsort for the same strict key order. -/
def stableSort {α : Type} (lt : α → α → Bool) : List α → List α
  | [] => []
  | x :: xs => insertSorted lt x (stableSort lt xs)

/-- `batch.groupby(PERSON_ID)` on one batch: pandas iterates the groups in
ascending key order, each group holding that key's rows in row order. -/
def pandasGroupby (batch : List SourceRow) : List (Int × List SourceRow) :=
  (stableSort (fun a b => a < b) (dedupFirst (batch.map SourceRow.pid))).map
    (fun pid => (pid, batch.filter (fun r => r.pid == pid)))

/-- The buffering loop of `_create_table_iterator` (lines 143-161): groups
arriving from consecutive batches are accumulated while the person id is
unchanged, and the buffer is yielded when a new person id appears; the final
buffer is yielded at the end. -/
def bufferGroups : List (Int × List SourceRow) → Option (Int × List SourceRow) →
    List (List SourceRow)
  | [], none => []
  | [], some b => [b.2]
  | (pid, g) :: rest, none => bufferGroups rest (some (pid, g))
  | (pid, g) :: rest, some (bpid, buf) =>
    if bpid = pid then bufferGroups rest (some (bpid, buf ++ g))
    else buf :: bufferGroups rest (some (pid, g))

/-- `_create_table_iterator(table_name, partition_i)`: the table file is read
with `pq.read_table`, which raises `FileNotFoundError` when the file is
absent (there is no exception handling in the source); otherwise the batches
are grouped per person.  `none` models an absent file, `some batches` a
present one. -/
def _create_table_iterator (file : Option (List (List SourceRow))) :
    Except String (List (List SourceRow)) :=
  match file with
  | none => Except.error "FileNotFoundError"
  | some batches => Except.ok (bufferGroups (batches.flatMap pandasGroupby) none)

/-! ## The partition merge-join (`abstract_cdm_processor.py`, lines 95-129)

`_process_partition` pre-fetches one row group per table stream, then, for
every person group yielded by the anchor (person) stream, advances each table
stream past groups with a smaller person id; a group with an equal person id
is attached to the combined table-set, and otherwise the current group is
stored back for later anchor steps.  A python generator is modelled as a list
of pending row groups, and `next(it, None)` pops its head. -/

/-- A row group: all rows of one person in one table of one partition.  The
merge-join only inspects `group[PERSON_ID].iat[0]`, so the rows are abstracted
into a payload. -/
structure RowGroup where
  pid : Int
  payload : Int
deriving DecidableEq, Repr

/-- `next(iterator, None)` on the pending list of a generator. -/
def nextGroup : List RowGroup → Option RowGroup × List RowGroup
  | [] => (none, [])
  | g :: gs => (some g, gs)

/-- The inner `while` loop of `_process_partition` (lines 115-119): keep
fetching while the current group exists and its person id is below the anchor
person id. -/
def advanceTable (p : Int) : Option RowGroup → List RowGroup →
    Option RowGroup × List RowGroup
  | none, rest => (none, rest)
  | some g, [] => if g.pid < p then (none, []) else (some g, [])
  | some g, h :: t => if g.pid < p then advanceTable p (some h) t else (some g, h :: t)

/-- One anchor step for one table (lines 114-126): returns the group attached
to `cdm_tables` (if any) and the new `(stored group, pending generator)` pair.
When the advanced group matches the anchor person id it is attached and the
*old* stored value is kept (the source only writes `table_person_datas` back
in the non-matching branch); otherwise the advanced group is stored back. -/
def stepTable (p : Int) (st : Option RowGroup × List RowGroup) :
    Option RowGroup × (Option RowGroup × List RowGroup) :=
  let a := advanceTable p st.1 st.2
  match a.1 with
  | some g => if g.pid = p then (some g, (st.1, a.2)) else (none, (a.1, a.2))
  | none => (none, (none, a.2))

/-- One anchor step over all table streams (the `for table_name,
table_person_data in table_person_datas.items()` loop): each stream is stepped
independently; the first component collects the attachments for this person's
combined table-set, the second the updated stream states. -/
def partitionStep (p : Int)
    (sts : List (String × (Option RowGroup × List RowGroup))) :
    List (String × Option RowGroup) ×
      List (String × (Option RowGroup × List RowGroup)) :=
  (sts.map (fun nst => (nst.1, (stepTable p nst.2).1)),
   sts.map (fun nst => (nst.1, (stepTable p nst.2).2)))

/-- The anchor loop of `_process_partition`: for every anchor person id, emit
that person's combined table-set and carry the stream states forward. -/
def processPartitionGo : List Int →
    List (String × (Option RowGroup × List RowGroup)) →
    List (Int × List (String × Option RowGroup))
  | [], _ => []
  | p :: ps, sts =>
    let r := partitionStep p sts
    (p, r.1) :: processPartitionGo ps r.2

/-- `_process_partition`: every table stream is opened and pre-fetched once
(lines 101-108), then the anchor stream drives the merge. -/
def _process_partition (anchors : List Int)
    (tables : List (String × List RowGroup)) :
    List (Int × List (String × Option RowGroup)) :=
  processPartitionGo anchors (tables.map (fun nt => (nt.1, nextGroup nt.2)))

/-- The live stream of a `(stored group, pending list)` state. -/
def streamOf : Option RowGroup × List RowGroup → List RowGroup
  | (some g, rest) => g :: rest
  | (none, rest) => rest

/-- Invariant carried by a table stream state across anchor steps: the live
stream is a sublist of the table's original row groups, every original group
whose person id still occurs among the pending anchors is in the live stream,
and an exhausted stored pointer means an exhausted generator. -/
def TInv (groups : List RowGroup) (anchors : List Int)
    (st : Option RowGroup × List RowGroup) : Prop :=
  List.Sublist (streamOf st) groups ∧
  (∀ p ∈ anchors, ∀ g ∈ groups, g.pid = p → g ∈ streamOf st) ∧
  (st.1 = none → st.2 = [])

lemma streamOf_nextGroup (groups : List RowGroup) :
    streamOf (nextGroup groups) = groups := by
  cases groups <;> rfl

lemma advanceTable_stream (p : Int) (rest : List RowGroup) : ∀ g : RowGroup,
    streamOf (advanceTable p (some g) rest) =
      (g :: rest).dropWhile (fun x => decide (x.pid < p)) := by
  induction rest with
  | nil =>
    intro g
    by_cases h : g.pid < p <;> simp [advanceTable, streamOf, List.dropWhile_cons, h]
  | cons h t ih =>
    intro g
    by_cases hlt : g.pid < p
    · rw [show advanceTable p (some g) (h :: t) = advanceTable p (some h) t by
        simp [advanceTable, hlt]]
      rw [ih h]
      simp [List.dropWhile_cons, hlt]
    · simp [advanceTable, streamOf, List.dropWhile_cons, hlt]

lemma advanceTable_exhausted (p : Int) (rest : List RowGroup) : ∀ g : RowGroup,
    (advanceTable p (some g) rest).1 = none → (advanceTable p (some g) rest).2 = [] := by
  induction rest with
  | nil => intro g; by_cases h : g.pid < p <;> simp [advanceTable, h]
  | cons h t ih =>
    intro g
    by_cases hlt : g.pid < p
    · rw [show advanceTable p (some g) (h :: t) = advanceTable p (some h) t by
        simp [advanceTable, hlt]]
      exact ih h
    · simp [advanceTable, hlt]

lemma advanceTable_head_ge (p : Int) (rest : List RowGroup) : ∀ g g1 : RowGroup,
    ∀ rest1, advanceTable p (some g) rest = (some g1, rest1) → ¬ g1.pid < p := by
  induction rest with
  | nil =>
    intro g g1 rest1 h
    by_cases hlt : g.pid < p <;> simp [advanceTable, hlt] at h
    obtain ⟨rfl, -⟩ := h; exact hlt
  | cons h t ih =>
    intro g g1 rest1 hadv
    by_cases hlt : g.pid < p
    · exact ih h g1 rest1 (by simpa [advanceTable, hlt] using hadv)
    · simp [advanceTable, hlt] at hadv
      obtain ⟨rfl, -⟩ := hadv; exact hlt

lemma pid_inj {groups : List RowGroup}
    (hg : List.Pairwise (· < ·) (groups.map RowGroup.pid)) :
    ∀ {x y : RowGroup}, x ∈ groups → y ∈ groups → x.pid = y.pid → x = y := by
  rw [List.pairwise_map] at hg
  induction groups with
  | nil => intro x y hx _ _; simp at hx
  | cons a l ih =>
    rw [List.pairwise_cons] at hg
    intro x y hx hy hpid
    rcases List.mem_cons.mp hx with rfl | hx' <;> rcases List.mem_cons.mp hy with rfl | hy'
    · rfl
    · exact absurd hpid (ne_of_lt (hg.1 y hy'))
    · exact absurd hpid.symm (ne_of_lt (hg.1 x hx'))
    · exact ih hg.2 hx' hy' hpid

lemma find?_pid_eq_some {groups : List RowGroup} {p : Int}
    (hg : List.Pairwise (· < ·) (groups.map RowGroup.pid))
    {x : RowGroup} (hx : x ∈ groups) (hp : x.pid = p) :
    groups.find? (fun g => g.pid == p) = some x := by
  have hs : (groups.find? (fun g => g.pid == p)).isSome :=
    List.find?_isSome.mpr ⟨x, hx, by simp [hp]⟩
  obtain ⟨y, hy⟩ := Option.isSome_iff_exists.mp hs
  have h1 : y.pid = p := by simpa using List.find?_some hy
  have h2 : y ∈ groups := List.mem_of_find?_eq_some hy
  have : y = x := pid_inj hg h2 hx (h1.trans hp.symm)
  rw [hy, this]

lemma stepTable_spec {groups : List RowGroup} {p : Int} {ps : List Int}
    {st : Option RowGroup × List RowGroup}
    (hg : List.Pairwise (· < ·) (groups.map RowGroup.pid))
    (hps : ∀ q ∈ ps, p < q)
    (hinv : TInv groups (p :: ps) st) :
    (stepTable p st).1 = groups.find? (fun g => g.pid == p) ∧
      TInv groups ps (stepTable p st).2 := by
  obtain ⟨hsub, hcov, hnone⟩ := hinv
  obtain ⟨cur, pend⟩ := st
  cases cur with
  | none =>
    have hp : pend = [] := hnone rfl
    subst hp
    have hfind : groups.find? (fun g => g.pid == p) = none := by
      rw [List.find?_eq_none]
      intro g hgmem hbeq
      have hpid : g.pid = p := by simpa using hbeq
      have := hcov p (List.mem_cons_self _ _) g hgmem hpid
      simp [streamOf] at this
    refine ⟨by simp [stepTable, advanceTable, hfind], ?_, ?_, ?_⟩
    · simp [stepTable, advanceTable, streamOf]
    · intro q hq g hgmem hpid
      have := hcov q (List.mem_cons_of_mem _ hq) g hgmem hpid
      simp [streamOf] at this
    · intro _; simp [stepTable, advanceTable]
  | some g0 =>
    have hstream := advanceTable_stream p pend g0
    have hSsub : List.Sublist (g0 :: pend) groups := hsub
    rcases ha : advanceTable p (some g0) pend with ⟨a1, a2⟩
    rw [ha] at hstream
    cases a1 with
    | none =>
      have ha2 : a2 = [] := by
        have h := advanceTable_exhausted p pend g0
        rw [ha] at h; exact h rfl
      subst ha2
      have hdw : (g0 :: pend).dropWhile (fun x => decide (x.pid < p)) = [] := by
        simpa [streamOf] using hstream.symm
      have hall : ∀ x ∈ g0 :: pend, x.pid < p := by
        intro x hx
        exact of_decide_eq_true (List.dropWhile_eq_nil_iff.mp hdw x hx)
      have hfind : groups.find? (fun g => g.pid == p) = none := by
        rw [List.find?_eq_none]
        intro g hgmem hbeq
        have hpid : g.pid = p := by simpa using hbeq
        have hmem := hcov p (List.mem_cons_self _ _) g hgmem hpid
        simp only [streamOf] at hmem
        exact absurd hpid (ne_of_lt (hall g hmem))
      refine ⟨by simp [stepTable, ha, hfind], ?_, ?_, ?_⟩
      · simp [stepTable, ha, streamOf]
      · intro q hq g hgmem hpid
        have hmem := hcov q (List.mem_cons_of_mem _ hq) g hgmem hpid
        simp only [streamOf] at hmem
        exact absurd hpid (ne_of_lt ((hall g hmem).trans (hps q hq)))
      · intro _; simp [stepTable, ha]
    | some g1 =>
      have hg1 : ¬ g1.pid < p := advanceTable_head_ge p pend g0 g1 a2 ha
      simp only [streamOf] at hstream
      have htw : (g0 :: pend).takeWhile (fun x => decide (x.pid < p)) ++ g1 :: a2
          = g0 :: pend := by
        rw [hstream]; exact List.takeWhile_append_dropWhile _ _
      have htw_lt : ∀ x ∈ (g0 :: pend).takeWhile (fun x => decide (x.pid < p)),
          x.pid < p := by
        intro x hx
        have hx2 := List.mem_takeWhile_imp hx
        exact of_decide_eq_true hx2
      have hmem_g1 : g1 ∈ g0 :: pend := by
        rw [← htw]; exact List.mem_append_right _ (List.mem_cons_self _ _)
      have hsfx : List.Sublist (g1 :: a2) (g0 :: pend) := by
        rw [← htw]; exact List.sublist_append_right _ _
      have hSP : (g0 :: pend).Pairwise (fun a b => a.pid < b.pid) :=
        List.Pairwise.sublist hSsub (List.pairwise_map.mp hg)
      by_cases heqp : g1.pid = p
      · -- the advanced group matches the anchor person id and is attached
        have hfind := find?_pid_eq_some hg (hSsub.subset hmem_g1) heqp
        refine ⟨by simp [stepTable, ha, heqp, hfind], ?_, ?_, ?_⟩
        · -- the new live stream (g0 :: a2) is still a sublist of the table
          simp only [stepTable, ha, heqp, if_pos, streamOf]
          cases htww : (g0 :: pend).takeWhile (fun x => decide (x.pid < p)) with
          | nil =>
            rw [htww, List.nil_append] at htw
            obtain ⟨rfl, rfl⟩ : g1 = g0 ∧ a2 = pend := by
              constructor <;> [exact (List.cons.injEq _ _ _ _ ▸ htw).1;
                exact (List.cons.injEq _ _ _ _ ▸ htw).2]
            exact hSsub
          | cons b tw' =>
            rw [htww, List.cons_append] at htw
            have hb : b = g0 := (List.cons.injEq _ _ _ _ ▸ htw).1
            have hpend : tw' ++ g1 :: a2 = pend := (List.cons.injEq _ _ _ _ ▸ htw).2
            have ha2p : List.Sublist a2 pend := by
              rw [← hpend]
              have : (tw' ++ [g1]) ++ a2 = tw' ++ g1 :: a2 := by simp
              rw [← this]
              exact List.sublist_append_right _ _
            exact (List.Sublist.cons₂ g0 ha2p).trans hSsub
        · intro q hq gq hgmem hpid
          have hmem := hcov q (List.mem_cons_of_mem _ hq) gq hgmem hpid
          simp only [streamOf] at hmem
          rw [← htw] at hmem
          simp only [stepTable, ha, heqp, if_pos, streamOf]
          rcases List.mem_append.mp hmem with h1 | h2
          · exact absurd hpid (ne_of_lt ((htw_lt gq h1).trans (hps q hq)))
          · rcases List.mem_cons.mp h2 with rfl | h3
            · exact absurd (heqp.symm.trans hpid) (ne_of_lt (hps q hq))
            · exact List.mem_cons_of_mem _ h3
        · intro h; simp [stepTable, ha, heqp] at h
      · -- the advanced group is ahead of the anchor and is stored back
        have hgt : p < g1.pid :=
          lt_of_le_of_ne (not_lt.mp hg1) (fun h => heqp h.symm)
        have hfind : groups.find? (fun g => g.pid == p) = none := by
          rw [List.find?_eq_none]
          intro gq hgmem hbeq
          have hpid : gq.pid = p := by simpa using hbeq
          have hmem := hcov p (List.mem_cons_self _ _) gq hgmem hpid
          simp only [streamOf] at hmem
          rw [← htw] at hmem
          rcases List.mem_append.mp hmem with h1 | h2
          · exact absurd hpid (ne_of_lt (htw_lt gq h1))
          · rcases List.mem_cons.mp h2 with rfl | h3
            · exact heqp hpid
            · have hpair := List.Pairwise.sublist hsfx hSP
              have hlt := (List.pairwise_cons.mp hpair).1 gq h3
              exact hg1 (hpid ▸ hlt)
        refine ⟨by simp [stepTable, ha, heqp, hfind], ?_, ?_, ?_⟩
        · simp only [stepTable, ha, heqp, if_neg, streamOf]
          exact hsfx.trans hSsub
        · intro q hq gq hgmem hpid
          have hmem := hcov q (List.mem_cons_of_mem _ hq) gq hgmem hpid
          simp only [streamOf] at hmem
          rw [← htw] at hmem
          simp only [stepTable, ha, heqp, if_neg, streamOf]
          rcases List.mem_append.mp hmem with h1 | h2
          · exact absurd hpid (ne_of_lt ((htw_lt gq h1).trans (hps q hq)))
          · exact h2
        · intro h; simp [stepTable, ha, heqp] at h

/-- Correspondence between a table (name, original row groups) and its
current stream state. -/
def tableCorr (anchors : List Int) (nt : String × List RowGroup)
    (nst : String × (Option RowGroup × List RowGroup)) : Prop :=
  nt.1 = nst.1 ∧ List.Pairwise (· < ·) (nt.2.map RowGroup.pid) ∧
    TInv nt.2 anchors nst.2

lemma partitionStep_spec {p : Int} {ps : List Int} (hps : ∀ q ∈ ps, p < q) :
    ∀ {tables : List (String × List RowGroup)}
      {sts : List (String × (Option RowGroup × List RowGroup))},
      List.Forall₂ (tableCorr (p :: ps)) tables sts →
      (sts.map (fun nst => (nst.1, (stepTable p nst.2).1)) =
        tables.map (fun nt => (nt.1, nt.2.find? (fun g => g.pid == p)))) ∧
      List.Forall₂ (tableCorr ps) tables
        (sts.map (fun nst => (nst.1, (stepTable p nst.2).2))) := by
  intro tables sts h
  induction h with
  | nil => exact ⟨rfl, List.Forall₂.nil⟩
  | cons hc _ ih =>
    obtain ⟨hname, hpw, hinv⟩ := hc
    have hstep := stepTable_spec hpw hps hinv
    refine ⟨?_, ?_⟩
    · simp only [List.map_cons, ih.1, hstep.1, hname]
    · exact List.Forall₂.cons ⟨hname, hpw, hstep.2⟩ ih.2

lemma processPartitionGo_spec : ∀ (anchors : List Int),
    List.Pairwise (· < ·) anchors →
    ∀ {tables : List (String × List RowGroup)}
      {sts : List (String × (Option RowGroup × List RowGroup))},
      List.Forall₂ (tableCorr anchors) tables sts →
      processPartitionGo anchors sts =
        anchors.map (fun p =>
          (p, tables.map (fun nt => (nt.1, nt.2.find? (fun g => g.pid == p))))) := by
  intro anchors
  induction anchors with
  | nil => intro _ tables sts _; rfl
  | cons p ps ih =>
    intro hpw tables sts hcorr
    rw [List.pairwise_cons] at hpw
    have hstep := partitionStep_spec hpw.1 hcorr
    simp only [processPartitionGo, partitionStep, List.map_cons]
    rw [hstep.1, ih hpw.2 hstep.2]

/-- C1 auxiliary: the initial pre-fetched states satisfy the invariant. -/
lemma initial_corr (anchors : List Int) :
    ∀ (tables : List (String × List RowGroup)),
      (∀ nt ∈ tables, List.Pairwise (· < ·) (nt.2.map RowGroup.pid)) →
      List.Forall₂ (tableCorr anchors) tables
        (tables.map (fun nt => (nt.1, nextGroup nt.2))) := by
  intro tables
  induction tables with
  | nil => intro _; exact List.Forall₂.nil
  | cons nt rest ih =>
    intro h
    obtain ⟨name, groups⟩ := nt
    refine List.Forall₂.cons ⟨rfl, h _ (List.mem_cons_self _ _), ?_, ?_, ?_⟩
      (ih (fun x hx => h x (List.mem_cons_of_mem _ hx)))
    · show List.Sublist (streamOf (nextGroup groups)) groups
      rw [streamOf_nextGroup]
    · intro q _ g hgmem hpid
      show g ∈ streamOf (nextGroup groups)
      rw [streamOf_nextGroup]; exact hgmem
    · show (nextGroup groups).1 = none → (nextGroup groups).2 = []
      cases groups with
      | nil => intro _; rfl
      | cons a l => intro hx; simp [nextGroup] at hx

/-- C1: for every partition whose tables are each sorted ascending by person
id, the merge-join in `_process_partition` yields, for every person id `p` in
the anchor (person) stream, a combined table-set that attaches, for each
non-anchor table, exactly the row group whose person id equals `p` when such
a group exists and nothing from that table otherwise; row groups with smaller
person ids are discarded and a row group with a larger person id is retained
unconsumed as lookahead for later anchor steps. -/
theorem C1_merge_join (anchors : List Int) (tables : List (String × List RowGroup))
    (hA : List.Pairwise (· < ·) anchors)
    (hT : ∀ nt ∈ tables, List.Pairwise (· < ·) (nt.2.map RowGroup.pid)) :
    _process_partition anchors tables =
      anchors.map (fun p =>
        (p, tables.map (fun nt => (nt.1, nt.2.find? (fun g => g.pid == p))))) :=
  processPartitionGo_spec anchors hA (initial_corr anchors tables hT)

theorem C1_merge_join_witness :
    _process_partition [1, 2, 4]
        [("visit_occurrence", [⟨1, 10⟩, ⟨2, 20⟩, ⟨3, 30⟩, ⟨4, 40⟩]),
         ("death", [⟨2, 50⟩])] =
      [(1, [("visit_occurrence", some ⟨1, 10⟩), ("death", none)]),
       (2, [("visit_occurrence", some ⟨2, 20⟩), ("death", some ⟨2, 50⟩)]),
       (4, [("visit_occurrence", some ⟨4, 40⟩), ("death", none)])] := by
  have h := C1_merge_join [1, 2, 4]
    [("visit_occurrence", [⟨1, 10⟩, ⟨2, 20⟩, ⟨3, 30⟩, ⟨4, 40⟩]),
     ("death", [⟨2, 50⟩])] (by decide) (by decide)
  rw [h]; decide

/-- C4: the interval token buckets of `_create_interval_token`: a negative
gap gives the fixed underflow token "W-1"; a gap below 28 days the
week-bucket token; a gap below 360 days the month-bucket token; any larger
gap the fixed long-term token "LT"; with the concrete instances -3, 10, 40
and 400 days. -/
theorem C4_interval_token (d : Int) :
    (d < 0 → _create_interval_token d = "W-1") ∧
    (0 ≤ d → d < 28 → _create_interval_token d = "W" ++ toString (Int.fdiv d 7)) ∧
    (28 ≤ d → d < 360 → _create_interval_token d = "M" ++ toString (Int.fdiv d 30)) ∧
    (360 ≤ d → _create_interval_token d = "LT") ∧
    _create_interval_token (-3) = "W-1" ∧
    _create_interval_token 10 = "W1" ∧
    _create_interval_token 40 = "M1" ∧
    _create_interval_token 400 = "LT" := by
  refine ⟨?_, ?_, ?_, ?_, by decide, by decide, by decide, by decide⟩
  · intro h; simp [_create_interval_token, h]
  · intro h0 h28
    simp [_create_interval_token, show ¬ d < 0 by omega, h28]
  · intro h28 h360
    simp [_create_interval_token, show ¬ d < 0 by omega, show ¬ d < 28 by omega, h360]
  · intro h360
    simp [_create_interval_token, show ¬ d < 0 by omega, show ¬ d < 28 by omega,
      show ¬ d < 360 by omega]

theorem C4_interval_token_witness :
    _create_interval_token 10 = "W" ++ toString (Int.fdiv 10 7) :=
  ((C4_interval_token 10).2.1) (by decide) (by decide)

/-- C3 counterexample: for an absent table file, the reader raises
`FileNotFoundError` (propagated from `pq.read_table`); it does not produce an
empty sequence of row groups. -/
theorem C3_counterexample :
    _create_table_iterator none = Except.error "FileNotFoundError" ∧
    _create_table_iterator none ≠ Except.ok [] := by
  refine ⟨rfl, ?_⟩
  intro h
  exact Except.noConfusion h

/-- C3 (amended): when the underlying table file is absent for a partition,
`_create_table_iterator` fails with the propagated file-not-found error
rather than yielding an empty sequence; when the file is present the reader
succeeds. -/
theorem C3_missing_file_raises :
    _create_table_iterator none = Except.error "FileNotFoundError" ∧
    ∀ batches, ∃ gs, _create_table_iterator (some batches) = Except.ok gs :=
  ⟨rfl, fun _ => ⟨_, rfl⟩⟩

/-- C9 counterexample: the CEHR-BERT person lookup silently uses the first
row of a two-row person table instead of failing, and the top-level
`get_date_of_birth` error message for two different two-row person tables
with different person ids is one and the same string, so it does not identify
the offending person id. -/
theorem C9_counterexample :
    cehrBertDateOfBirth [⟨42, 1980, some 5, some 6⟩, ⟨43, 1990, some 7, some 8⟩]
        = Except.ok ⟨1980, 5, 6⟩ ∧
    get_date_of_birth_df [⟨42, 1980, some 5, some 6⟩, ⟨43, 1990, some 7, some 8⟩]
        = Except.error "Expecting person to have 1 row, but found 2 rows" ∧
    get_date_of_birth_df [⟨98, 1970, some 1, some 2⟩, ⟨99, 1975, some 3, some 4⟩]
        = Except.error "Expecting person to have 1 row, but found 2 rows" := by
  exact ⟨rfl, rfl, rfl⟩

/-- C9 (amended): on a person lookup with a row count other than one, the
top-level `get_date_of_birth` raises an error stating the row count (but not
the person id), while the CEHR-BERT processing path performs no cardinality
check and silently uses the first person row. -/
theorem C9_cardinality_behavior (persons : List PersonRow)
    (h : persons.length ≠ 1) :
    get_date_of_birth_df persons =
      Except.error ("Expecting person to have 1 row, but found "
        ++ toString persons.length ++ " rows") ∧
    ∀ (p : PersonRow) (rest : List PersonRow),
      cehrBertDateOfBirth (p :: rest) = Except.ok (get_date_of_birth p) := by
  constructor
  · simp [get_date_of_birth_df, h]
  · intro p rest; rfl

theorem C9_cardinality_behavior_witness :
    get_date_of_birth_df [⟨1, 2000, none, none⟩, ⟨2, 2001, none, none⟩] =
      Except.error "Expecting person to have 1 row, but found 2 rows" := by
  have h := C9_cardinality_behavior
    [⟨1, 2000, none, none⟩, ⟨2, 2001, none, none⟩] (by decide)
  rw [h.1]; rfl

/-- C10: `get_date_of_birth` assembles the date of birth from year, month and
day of birth, substituting 1 for a missing month and/or day; a person with
only a year of birth gets January 1 of that year; on a single-row frame the
DataFrame variant agrees. -/
theorem C10_date_of_birth :
    (∀ p : PersonRow, get_date_of_birth p =
      ⟨p.year_of_birth, p.month_of_birth.getD 1, p.day_of_birth.getD 1⟩) ∧
    (∀ pid y, get_date_of_birth ⟨pid, y, none, none⟩ = ⟨y, 1, 1⟩) ∧
    (∀ p : PersonRow, get_date_of_birth_df [p] = Except.ok (get_date_of_birth p)) := by
  refine ⟨?_, ?_, ?_⟩
  · intro p
    cases hm : p.month_of_birth <;> cases hd : p.day_of_birth <;>
      simp [get_date_of_birth, hm, hd]
  · intro pid y; rfl
  · intro p; rfl

/-! ## Visit grouping (`cdm_processing/cdm_processor_utils.py`, lines 176-323)

`group_by_visit` assigns every event of every domain table to a visit.  The
assignment array is computed with `np.piecewise`: one boolean condition per
visit, the visit indices as values, and `-1` appended as the default.  Numpy
evaluates `y[cond] = val` sequentially, so a later true condition overwrites
an earlier one.  Unassigned events (index `-1`) optionally produce synthetic
one-day visits, one per distinct date, and are then reassigned by exact date
equality.  The resulting `VisitData` list is sorted (stably) by visit start
date. -/

/-- A row of the `visit_occurrence` table (or a synthesized visit):
`visit_occurrence_id` is `none` for the `np.NAN` of synthesized visits. -/
structure Visit where
  visit_occurrence_id : Option Int
  visit_concept_id : Int
  visit_start_date : Int
  visit_end_date : Int
deriving DecidableEq, Repr

/-- A domain-table event row: its (possibly absent) visit_occurrence_id, its
concept id and its start date. -/
structure Event where
  visit_occurrence_id : Option Int
  concept_id : Int
  start_date : Int
deriving DecidableEq, Repr

/-- One domain table of a person: its name, whether it carries a
`visit_occurrence_id` column, and its event rows. -/
structure DomainTable where
  name : String
  has_voi : Bool
  events : List Event
deriving DecidableEq, Repr

/-- The `VisitData` class: a visit row plus the events of each domain table
assigned to it (`cdm_tables`, keyed by table name in insertion order). -/
structure VisitData where
  visit : Visit
  cdm_tables : List (String × List Event)
deriving DecidableEq, Repr

/-- Equality of two pandas values that may be `NaN`: `NaN` compares unequal
to everything, including itself. -/
def optEq : Option Int → Option Int → Bool
  | some a, some b => a == b
  | _, _ => false

/-- `np.piecewise(x, condlist, funclist)` with `len(funclist) =
len(condlist) + 1`: `y` starts at zero, each true condition overwrites `y`
with its value in sequence, and the appended default is applied where no
condition is true. -/
def npPiecewise (conds : List Bool) (vals : List Int) (dflt : Int) : Int :=
  let y := (conds.zip vals).foldl (fun y cv => if cv.1 then cv.2 else y) 0
  if conds.any (fun c => c) then y else dflt

/-- `np.piecewise` with `len(funclist) = len(condlist)` (no default): where
no condition is true the zero initialisation remains. -/
def npPiecewiseNoDefault (conds : List Bool) (vals : List Int) : Int :=
  (conds.zip vals).foldl (fun y cv => if cv.1 then cv.2 else y) 0

/-- The per-visit boolean conditions used by `group_by_visit` for one event
(lines 229-281): with date linking, visit-id equality OR-combined with the
date-in-range test (or the date test alone when the table has no visit-id
column); without date linking, visit-id equality alone (or nothing). -/
def visitConds (link_by_date has_voi : Bool) (visits : List Visit) (e : Event) :
    List Bool :=
  if link_by_date then
    if has_voi then
      visits.map (fun v =>
        optEq e.visit_occurrence_id v.visit_occurrence_id
          || (decide (v.visit_start_date ≤ e.start_date)
              && decide (e.start_date ≤ v.visit_end_date)))
    else
      visits.map (fun v =>
        decide (v.visit_start_date ≤ e.start_date)
          && decide (e.start_date ≤ v.visit_end_date))
  else if has_voi then
    visits.map (fun v => optEq e.visit_occurrence_id v.visit_occurrence_id)
  else List.replicate visits.length false

/-- The `event_visit_index` entry of one event: `-1` when there are no
visits, or when the configuration provides no condition at all (the
`event_visit_index.fill(-1)` branches); otherwise the `np.piecewise` result
over the visit conditions with values `0, …, len(visits)-1` and default
`-1`. -/
def eventVisitIndex (link_by_date has_voi : Bool) (visits : List Visit)
    (e : Event) : Int :=
  if visits.length = 0 then -1
  else if link_by_date || has_voi then
    npPiecewise (visitConds link_by_date has_voi visits e)
      ((List.range visits.length).map Int.ofNat) (-1)
  else -1

/-- The reassignment of one unassigned event to a freshly created missing
visit (lines 299-308): `np.piecewise` over exact date equality with the
missing visits, with values `len(visits), …, len(visits)+len(dates)-1` and no
default. -/
def reassignIndex (mvs : List Visit) (base : Nat) (e : Event) : Int :=
  npPiecewiseNoDefault
    (mvs.map (fun mv => decide (mv.visit_start_date = e.start_date)))
    ((List.range mvs.length).map (fun i => Int.ofNat (base + i)))

/-- `for visit_index, events in cdm_table.groupby(event_visit_index):
visit_datas[visit_index].cdm_tables[table_name] = events` — every visit index
that received at least one event gets that table's event sub-list (in row
order) appended to its `cdm_tables`. -/
def attachGroups (name : String) (pairs : List (Event × Int)) :
    List VisitData → Nat → List VisitData
  | [], _ => []
  | vd :: vds, i =>
    (if ((pairs.filter (fun pr => pr.2 == Int.ofNat i)).map Prod.fst).isEmpty
     then vd
     else { vd with cdm_tables := vd.cdm_tables ++
       [(name, (pairs.filter (fun pr => pr.2 == Int.ofNat i)).map Prod.fst)] }) ::
    attachGroups name pairs vds (i + 1)

/-- The `event_visit_index` array zipped with the table's events (the rows of
`cdm_table` paired with their computed visit indices). -/
def tablePairs (link_by_date : Bool) (visits : List Visit) (tbl : DomainTable) :
    List (Event × Int) :=
  tbl.events.map (fun e => (e, eventVisitIndex link_by_date tbl.has_voi visits e))

/-- `dates = cdm_table.loc[idx, start_date_field].unique()` — the distinct
start dates of the unassigned events, in order of first appearance. -/
def missingDates (pairs : List (Event × Int)) : List Int :=
  dedupFirst ((pairs.filter (fun pr => pr.2 == -1)).map (fun pr => pr.1.start_date))

/-- The `missing_visits` frame (lines 290-298): one single-day visit per
distinct unassigned date, with a NaN `visit_occurrence_id` and the configured
`missing_visit_concept_id`. -/
def missingVisits (missing_visit_concept_id : Int) (dates : List Int) :
    List Visit :=
  dates.map (fun d => Visit.mk none missing_visit_concept_id d d)

/-- The body of the `for table_name in DOMAIN_TABLES` loop of
`group_by_visit` for one domain table: compute the per-event visit indices;
when missing-visit creation is on and unassigned events exist, create one
single-day visit per distinct unassigned date and reassign those events by
exact date; when it is off, drop unassigned events; finally attach the
grouped events to their visits. -/
def processTable (link_by_date create_missing_visits : Bool)
    (missing_visit_concept_id : Int) (st : List Visit × List VisitData)
    (tbl : DomainTable) : List Visit × List VisitData :=
  if tbl.events.isEmpty then st
  else
    let pairs := tablePairs link_by_date st.1 tbl
    if create_missing_visits then
      if pairs.any (fun pr => pr.2 == -1) then
        let mvs := missingVisits missing_visit_concept_id (missingDates pairs)
        let pairs2 := pairs.map (fun pr =>
          if pr.2 == -1 then (pr.1, reassignIndex mvs st.1.length pr.1) else pr)
        (st.1 ++ mvs,
         attachGroups tbl.name pairs2
           (st.2 ++ mvs.map (fun mv => VisitData.mk mv [])) 0)
      else (st.1, attachGroups tbl.name pairs st.2 0)
    else
      (st.1, attachGroups tbl.name (pairs.filter (fun pr => ¬(pr.2 == -1))) st.2 0)

/-- The state of `group_by_visit` after the domain-table loop: the final
`visits` frame and the `visit_datas` list, before the sort. -/
def group_by_visit_state (link_by_date create_missing_visits : Bool)
    (missing_visit_concept_id : Int) (realVisits : List Visit)
    (tables : List DomainTable) : List Visit × List VisitData :=
  tables.foldl (processTable link_by_date create_missing_visits
    missing_visit_concept_id)
    (realVisits, realVisits.map (fun v => VisitData.mk v []))

/-- `group_by_visit` (lines 191-323): the `visit_datas`, stably sorted by
visit start date (`visit_datas.sort(key=lambda x: x.visit_start_date)`). -/
def group_by_visit (link_by_date create_missing_visits : Bool)
    (missing_visit_concept_id : Int) (realVisits : List Visit)
    (tables : List DomainTable) : List VisitData :=
  stableSort (fun a b => a.visit.visit_start_date < b.visit.visit_start_date)
    (group_by_visit_state link_by_date create_missing_visits
      missing_visit_concept_id realVisits tables).2

/-- The value of the last true condition in a sequential-overwrite loop, if
any. -/
def lastPick : List Bool → List Int → Option Int
  | c :: cs, v :: vs =>
    (match lastPick cs vs with
     | some r => some r
     | none => if c then some v else none)
  | _, _ => none

lemma foldl_overwrite (conds : List Bool) : ∀ (vals : List Int) (y0 : Int),
    (conds.zip vals).foldl (fun y cv => if cv.1 then cv.2 else y) y0 =
      (lastPick conds vals).getD y0 := by
  induction conds with
  | nil => intro vals y0; rfl
  | cons c cs ih =>
    intro vals y0
    cases vals with
    | nil => rfl
    | cons v vs =>
      simp only [List.zip_cons_cons, List.foldl_cons]
      rw [ih vs]
      cases h : lastPick cs vs with
      | some r => simp [lastPick, h]
      | none => cases c <;> simp [lastPick, h]

lemma lastPick_none_iff (conds : List Bool) : ∀ (vals : List Int),
    conds.length ≤ vals.length →
    (lastPick conds vals = none ↔ ∀ i, conds.getD i false = false) := by
  induction conds with
  | nil =>
    intro vals _
    simp only [lastPick]
    constructor
    · intro _ i; cases i <;> rfl
    · intro _; trivial
  | cons c cs ih =>
    intro vals hlen
    cases vals with
    | nil => simp at hlen
    | cons v vs =>
      have hlen2 : cs.length ≤ vs.length := by simpa using hlen
      constructor
      · intro h i
        have hsub : lastPick cs vs = none ∧ c = false := by
          cases hl : lastPick cs vs with
          | some r => simp [lastPick, hl] at h
          | none =>
            refine ⟨rfl, ?_⟩
            cases c
            · rfl
            · simp [lastPick, hl] at h
        cases i with
        | zero => exact hsub.2
        | succ j => exact ((ih vs hlen2).mp hsub.1) j
      · intro h
        have hc : c = false := h 0
        have hcs : lastPick cs vs = none := (ih vs hlen2).mpr (fun i => h (i + 1))
        simp [lastPick, hcs, hc]

lemma lastPick_some_spec (conds : List Bool) : ∀ (vals : List Int) (r : Int),
    conds.length = vals.length → lastPick conds vals = some r →
    ∃ j, j < conds.length ∧ conds.getD j false = true ∧ vals.getD j 0 = r ∧
      ∀ k, j < k → conds.getD k false = false := by
  induction conds with
  | nil => intro vals r _ h; simp [lastPick] at h
  | cons c cs ih =>
    intro vals r hlen h
    cases vals with
    | nil => simp at hlen
    | cons v vs =>
      have hlen2 : cs.length = vs.length := by simpa using hlen
      cases hl : lastPick cs vs with
      | some r2 =>
        have hr : r2 = r := by simpa [lastPick, hl] using h
        subst hr
        obtain ⟨j, hj, hct, hv, hlast⟩ := ih vs r2 hlen2 hl
        refine ⟨j + 1, by simpa using hj, by simpa using hct, by simpa using hv, ?_⟩
        intro k hk
        cases k with
        | zero => omega
        | succ k2 => simpa using hlast k2 (by omega)
      | none =>
        have hc : c = true ∧ v = r := by
          cases c
          · simp [lastPick, hl] at h
          · simpa [lastPick, hl] using h
        refine ⟨0, by simp, by simpa using hc.1, by simpa using hc.2, ?_⟩
        intro k hk
        cases k with
        | zero => omega
        | succ k2 =>
          have := (lastPick_none_iff cs vs (le_of_eq hlen2)).mp hl
          simpa using this k2

lemma npPiecewise_cases (conds : List Bool) (vals : List Int) (dflt : Int)
    (hlen : conds.length = vals.length) :
    (npPiecewise conds vals dflt = dflt ∧ ∀ i, conds.getD i false = false) ∨
    (∃ j, j < conds.length ∧ conds.getD j false = true ∧
      (∀ k, j < k → conds.getD k false = false) ∧
      npPiecewise conds vals dflt = vals.getD j 0) := by
  unfold npPiecewise
  rw [foldl_overwrite]
  cases hl : lastPick conds vals with
  | none =>
    left
    have hall := (lastPick_none_iff conds vals (le_of_eq hlen)).mp hl
    have hany : conds.any (fun c => c) = false := by
      rw [List.any_eq_false]
      intro x hx
      obtain ⟨i, hi, hget⟩ := List.mem_iff_getElem.mp hx
      intro hxt
      have : conds.getD i false = true := by
        rw [List.getD_eq_getElem _ _ hi, hget, hxt]
      rw [hall i] at this
      exact Bool.noConfusion this
    constructor
    · simp [hany]
    · exact hall
  | some r =>
    right
    obtain ⟨j, hj, hct, hv, hlast⟩ := lastPick_some_spec conds vals r hlen hl
    refine ⟨j, hj, hct, hlast, ?_⟩
    have hany : conds.any (fun c => c) = true := by
      rw [List.any_eq_true]
      refine ⟨conds[j], List.getElem_mem _, ?_⟩
      rw [← List.getD_eq_getElem conds false hj]
      exact hct
    simp only [hany, if_true]
    rw [Option.getD_some]
    exact hv.symm

lemma npPiecewise_eq_of_last (conds : List Bool) (vals : List Int) (dflt : Int)
    (j : Nat) (hlen : conds.length = vals.length)
    (hj : conds.getD j false = true)
    (hlast : ∀ k, j < k → conds.getD k false = false) :
    npPiecewise conds vals dflt = vals.getD j 0 := by
  rcases npPiecewise_cases conds vals dflt hlen with ⟨_, hall⟩ | ⟨i, _, hct, hilast, hv⟩
  · rw [hall j] at hj; exact Bool.noConfusion hj
  · have : i = j := by
      rcases lt_trichotomy i j with h | h | h
      · rw [hilast j h] at hj; exact Bool.noConfusion hj
      · exact h
      · rw [hlast i h] at hct; exact Bool.noConfusion hct
    rw [hv, this]

lemma length_visitConds (lbd hv : Bool) (visits : List Visit) (e : Event) :
    (visitConds lbd hv visits e).length = visits.length := by
  unfold visitConds; split_ifs <;> simp

lemma visitConds_getD_linked (hv : Bool) (visits : List Visit) (e : Event)
    (i : Nat) (hi : i < visits.length) :
    (visitConds true hv visits e).getD i false =
      ((hv && optEq e.visit_occurrence_id visits[i].visit_occurrence_id)
        || (decide (visits[i].visit_start_date ≤ e.start_date)
            && decide (e.start_date ≤ visits[i].visit_end_date))) := by
  have h1 : i < (visitConds true hv visits e).length := by
    rw [length_visitConds]; exact hi
  rw [List.getD_eq_getElem _ _ h1]
  cases hv <;> simp [visitConds]

lemma eventVisitIndex_neg_one {lbd hv : Bool} {visits : List Visit} {e : Event}
    (h : eventVisitIndex lbd hv visits e = -1) :
    ∀ i, (visitConds lbd hv visits e).getD i false = false := by
  intro i
  rcases le_or_lt (visitConds lbd hv visits e).length i with hge | hlt
  · exact List.getD_eq_default _ _ hge
  · unfold eventVisitIndex at h
    split_ifs at h with h0 hbranch
    · rw [length_visitConds] at hlt; omega
    · rcases npPiecewise_cases (visitConds lbd hv visits e)
        ((List.range visits.length).map Int.ofNat) (-1)
        (by rw [length_visitConds]; simp) with ⟨_, hall⟩ | ⟨j, hj, _, _, hval⟩
      · exact hall i
      · rw [hval] at h
        have : ((List.range visits.length).map Int.ofNat).getD j 0 = Int.ofNat j := by
          rw [List.getD_eq_getElem _ _ (by simpa [length_visitConds] using hj)]
          simp
        rw [this, Int.ofNat_eq_natCast] at h
        exact absurd h (by omega)
    · have hlbd : lbd = false := by
        cases lbd
        · rfl
        · exact absurd (by simp : (true || hv) = true) hbranch
      have hhv : hv = false := by
        cases hv
        · rfl
        · exact absurd (by simp : (lbd || true) = true) hbranch
      subst hlbd; subst hhv
      rw [show visitConds false false visits e
        = List.replicate visits.length false from rfl] at hlt ⊢
      rw [List.getD_eq_getElem _ _ hlt]
      simp

/-- C2 counterexample: an event whose date lies inside both of two visits
matches both OR-combined conditions, yet `eventVisitIndex` assigns index 1,
the latest-declared matching visit, not the earliest-declared index 0. -/
theorem C2_counterexample :
    visitConds true true [⟨some 1, 9, 0, 10⟩, ⟨some 2, 9, 0, 10⟩] ⟨none, 77, 5⟩
      = [true, true] ∧
    eventVisitIndex true true [⟨some 1, 9, 0, 10⟩, ⟨some 2, 9, 0, 10⟩]
      ⟨none, 77, 5⟩ ≠ 0 ∧
    eventVisitIndex true true [⟨some 1, 9, 0, 10⟩, ⟨some 2, 9, 0, 10⟩]
      ⟨none, 77, 5⟩ = 1 :=
  ⟨by decide, by decide, by decide⟩

/-- C2 (amended): in `group_by_visit`, an event matching more than one
existing visit under the OR-combined id/date criteria is assigned to the
latest-declared matching visit: `np.piecewise` applies the visit conditions
in order and a later true condition overwrites an earlier one, so the last
visit whose condition is true determines the assigned index. -/
theorem C2_last_match_wins (lbd hv : Bool) (visits : List Visit) (e : Event)
    (j : Nat)
    (hj : (visitConds lbd hv visits e).getD j false = true)
    (hlast : ∀ k, j < k → (visitConds lbd hv visits e).getD k false = false) :
    eventVisitIndex lbd hv visits e = Int.ofNat j := by
  have hjlt : j < (visitConds lbd hv visits e).length := by
    by_contra hcon
    rw [List.getD_eq_default _ _ (le_of_not_lt hcon)] at hj
    exact Bool.noConfusion hj
  have hvlen : ¬ visits.length = 0 := by
    rw [length_visitConds] at hjlt; omega
  have hcase : (lbd || hv) = true := by
    cases lbd with
    | true => rfl
    | false =>
      cases hv with
      | true => rfl
      | false =>
        exfalso
        rw [show visitConds false false visits e
          = List.replicate visits.length false from rfl] at hj hjlt
        rw [List.getD_eq_getElem _ _ hjlt] at hj
        simp at hj
  unfold eventVisitIndex
  rw [if_neg hvlen, if_pos hcase]
  rw [npPiecewise_eq_of_last _ _ _ j (by rw [length_visitConds]; simp) hj hlast]
  rw [List.getD_eq_getElem _ _ (by simpa [length_visitConds] using hjlt)]
  simp

theorem C2_last_match_wins_witness :
    eventVisitIndex true true [⟨some 1, 9, 0, 10⟩, ⟨some 2, 9, 0, 10⟩]
      ⟨none, 77, 5⟩ = Int.ofNat 1 :=
  C2_last_match_wins true true [⟨some 1, 9, 0, 10⟩, ⟨some 2, 9, 0, 10⟩]
    ⟨none, 77, 5⟩ 1 (by decide)
    (by
      intro k hk
      apply List.getD_eq_default
      have h2 : (visitConds true true [⟨some 1, 9, 0, 10⟩, ⟨some 2, 9, 0, 10⟩]
        ⟨none, 77, 5⟩).length = 2 := by decide
      omega)

lemma dedupFirst_aux_nodup :
    ∀ (l acc : List Int), acc.Nodup →
      (l.foldl (fun acc d => if acc.contains d then acc else acc ++ [d]) acc).Nodup := by
  intro l
  induction l with
  | nil => intro acc h; exact h
  | cons d t ih =>
    intro acc h
    simp only [List.foldl_cons]
    by_cases hc : acc.contains d
    · rw [if_pos hc]; exact ih acc h
    · rw [if_neg hc]
      refine ih _ ?_
      have hd : d ∉ acc := by simpa using hc
      simp [List.nodup_append, h, hd]

lemma dedupFirst_nodup (l : List Int) : (dedupFirst l).Nodup :=
  dedupFirst_aux_nodup l [] List.nodup_nil

lemma dedupFirst_aux_mem :
    ∀ (l acc : List Int) (x : Int),
      (x ∈ l.foldl (fun acc d => if acc.contains d then acc else acc ++ [d]) acc ↔
        x ∈ acc ∨ x ∈ l) := by
  intro l
  induction l with
  | nil => intro acc x; simp
  | cons d t ih =>
    intro acc x
    simp only [List.foldl_cons]
    by_cases hc : acc.contains d
    · rw [if_pos hc, ih]
      have hd : d ∈ acc := by simpa using hc
      constructor
      · rintro (h | h)
        · exact Or.inl h
        · exact Or.inr (List.mem_cons_of_mem _ h)
      · rintro (h | h)
        · exact Or.inl h
        · rcases List.mem_cons.mp h with rfl | h2
          · exact Or.inl hd
          · exact Or.inr h2
    · rw [if_neg hc, ih]
      simp only [List.mem_append, List.mem_singleton, List.mem_cons]
      tauto

lemma mem_dedupFirst {l : List Int} {x : Int} : x ∈ dedupFirst l ↔ x ∈ l := by
  unfold dedupFirst
  rw [dedupFirst_aux_mem]
  simp

lemma optEq_none (x : Option Int) : optEq x none = false := by
  cases x <;> rfl

lemma insertSorted_perm {α : Type} (lt : α → α → Bool) (x : α) :
    ∀ l : List α, (insertSorted lt x l).Perm (x :: l) := by
  intro l
  induction l with
  | nil => exact List.Perm.refl _
  | cons y ys ih =>
    by_cases h : lt y x
    · rw [insertSorted, if_pos h]
      exact (List.Perm.cons y ih).trans (List.Perm.swap x y ys)
    · rw [insertSorted, if_neg h]

lemma stableSort_perm {α : Type} (lt : α → α → Bool) :
    ∀ l : List α, (stableSort lt l).Perm l := by
  intro l
  induction l with
  | nil => exact List.Perm.refl _
  | cons x xs ih =>
    exact (insertSorted_perm lt x (stableSort lt xs)).trans (List.Perm.cons x ih)

lemma attachGroups_length (nm : String) (pairs : List (Event × Int)) :
    ∀ (vds : List VisitData) (i0 : Nat),
      (attachGroups nm pairs vds i0).length = vds.length := by
  intro vds
  induction vds with
  | nil => intro i0; rfl
  | cons vd rest ih => intro i0; simp [attachGroups, ih]

lemma attachGroups_getElem (nm : String) (pairs : List (Event × Int)) :
    ∀ (vds : List VisitData) (i0 i : Nat) (h : i < vds.length)
      (h2 : i < (attachGroups nm pairs vds i0).length),
      (attachGroups nm pairs vds i0).get ⟨i, h2⟩ =
        (if ((pairs.filter (fun pr => pr.2 == Int.ofNat (i0 + i))).map
              Prod.fst).isEmpty
         then vds.get ⟨i, h⟩
         else { vds.get ⟨i, h⟩ with cdm_tables := (vds.get ⟨i, h⟩).cdm_tables ++
           [(nm, (pairs.filter (fun pr => pr.2 == Int.ofNat (i0 + i))).map
             Prod.fst)] }) := by
  intro vds
  induction vds with
  | nil => intro i0 i h; simp at h
  | cons vd rest ih =>
    intro i0 i h h2
    cases i with
    | zero => simp [attachGroups]
    | succ j =>
      have hj : j < rest.length := by simpa using h
      have hj2 : j < (attachGroups nm pairs rest (i0 + 1)).length := by
        rw [attachGroups_length]; exact hj
      have := ih (i0 + 1) j hj hj2
      simp only [attachGroups, List.get_cons_succ]
      rw [this]
      have harith : i0 + 1 + j = i0 + (j + 1) := by omega
      rw [harith]

lemma eventVisitIndex_nonneg {lbd hv : Bool} {visits : List Visit} {e : Event}
    {i : Nat} (h : eventVisitIndex lbd hv visits e = Int.ofNat i) :
    i < visits.length ∧ (visitConds lbd hv visits e).getD i false = true := by
  unfold eventVisitIndex at h
  split_ifs at h with h0 hbranch
  rcases npPiecewise_cases (visitConds lbd hv visits e)
    ((List.range visits.length).map Int.ofNat) (-1)
    (by rw [length_visitConds]; simp) with ⟨hval, _⟩ | ⟨j, hj, hct, _, hval⟩
  · rw [hval] at h
    exact absurd h (by rw [Int.ofNat_eq_natCast]; omega)
  · rw [hval] at h
    rw [length_visitConds] at hj
    have hv2 : ((List.range visits.length).map Int.ofNat).getD j 0
        = Int.ofNat j := by
      rw [List.getD_eq_getElem _ _ (by simpa using hj)]
      simp
    rw [hv2] at h
    have hij : j = i := by
      rw [Int.ofNat_eq_natCast, Int.ofNat_eq_natCast] at h
      exact_mod_cast h
    subst hij
    exact ⟨hj, hct⟩

lemma npPiecewiseNoDefault_cases (conds : List Bool) (vals : List Int)
    (hlen : conds.length = vals.length) :
    (npPiecewiseNoDefault conds vals = 0 ∧ ∀ i, conds.getD i false = false) ∨
    (∃ j, j < conds.length ∧ conds.getD j false = true ∧
      npPiecewiseNoDefault conds vals = vals.getD j 0) := by
  unfold npPiecewiseNoDefault
  rw [foldl_overwrite]
  cases hl : lastPick conds vals with
  | none =>
    left
    exact ⟨rfl, (lastPick_none_iff conds vals (le_of_eq hlen)).mp hl⟩
  | some r =>
    right
    obtain ⟨j, hj, hct, hval, -⟩ := lastPick_some_spec conds vals r hlen hl
    exact ⟨j, hj, hct, by rw [Option.getD_some, hval]⟩

lemma reassignIndex_spec (mvs : List Visit) (base : Nat) (e : Event)
    (hmem : ∃ j, ∃ hj : j < mvs.length,
      (mvs.get ⟨j, hj⟩).visit_start_date = e.start_date) :
    ∃ j, ∃ hj : j < mvs.length,
      (mvs.get ⟨j, hj⟩).visit_start_date = e.start_date ∧
      reassignIndex mvs base e = Int.ofNat (base + j) := by
  obtain ⟨j0, hj0, hdate0⟩ := hmem
  unfold reassignIndex
  rcases npPiecewiseNoDefault_cases
      (mvs.map (fun mv => decide (mv.visit_start_date = e.start_date)))
      ((List.range mvs.length).map (fun i => Int.ofNat (base + i)))
      (by simp) with ⟨-, hall⟩ | ⟨j, hj, hct, hval⟩
  · exfalso
    have := hall j0
    rw [List.getD_eq_getElem _ _ (by simpa using hj0)] at this
    simp only [List.getElem_map] at this
    rw [List.get_eq_getElem] at hdate0
    simp [hdate0] at this
  · rw [List.length_map] at hj
    refine ⟨j, hj, ?_, ?_⟩
    · rw [List.getD_eq_getElem _ _ (by simpa using hj)] at hct
      simp only [List.getElem_map] at hct
      rw [List.get_eq_getElem]
      exact of_decide_eq_true hct
    · rw [hval, List.getD_eq_getElem _ _ (by simpa using hj)]
      simp

lemma evi_synthetic_date {hv : Bool} {visits : List Visit} {e : Event} {i : Nat}
    (hvoi : ∀ h : i < visits.length,
      (visits.get ⟨i, h⟩).visit_occurrence_id = none)
    (hend : ∀ h : i < visits.length,
      (visits.get ⟨i, h⟩).visit_end_date = (visits.get ⟨i, h⟩).visit_start_date)
    (h : eventVisitIndex true hv visits e = Int.ofNat i) :
    ∀ hlt : i < visits.length,
      e.start_date = (visits.get ⟨i, hlt⟩).visit_start_date := by
  intro hlt
  obtain ⟨-, hcond⟩ := eventVisitIndex_nonneg h
  rw [visitConds_getD_linked hv visits e i hlt] at hcond
  simp only [List.get_eq_getElem] at hvoi hend ⊢
  rw [hvoi hlt, optEq_none] at hcond
  simp only [Bool.and_false, Bool.false_or] at hcond
  rw [hend hlt] at hcond
  rw [Bool.and_eq_true] at hcond
  have h1 := of_decide_eq_true hcond.1
  have h2 := of_decide_eq_true hcond.2
  omega

lemma evi_neg_one_date {hv : Bool} {visits : List Visit} {e : Event} {i : Nat}
    (hi : i < visits.length)
    (hend : (visits.get ⟨i, hi⟩).visit_end_date
      = (visits.get ⟨i, hi⟩).visit_start_date)
    (h : eventVisitIndex true hv visits e = -1) :
    e.start_date ≠ (visits.get ⟨i, hi⟩).visit_start_date := by
  intro heq
  have hall := eventVisitIndex_neg_one h i
  rw [visitConds_getD_linked hv visits e i hi] at hall
  rw [List.get_eq_getElem] at hend heq
  have hdates := (Bool.or_eq_false_iff.mp hall).2
  rw [hend, heq] at hdates
  simp at hdates

lemma reassignIndex_dates {dates : List Int} {sentinel : Int} {base : Nat}
    {e : Event} (k : Nat) (hk : k < dates.length)
    (hkd : dates.get ⟨k, hk⟩ = e.start_date) (hnd : dates.Nodup) :
    reassignIndex (dates.map (fun d => Visit.mk none sentinel d d)) base e
      = Int.ofNat (base + k) := by
  have hmem : ∃ j, ∃ hj : j <
      (dates.map (fun d => Visit.mk none sentinel d d)).length,
      ((dates.map (fun d => Visit.mk none sentinel d d)).get
        ⟨j, hj⟩).visit_start_date = e.start_date := by
    refine ⟨k, by simpa using hk, ?_⟩
    rw [List.get_eq_getElem]
    rw [List.get_eq_getElem] at hkd
    simp only [List.getElem_map]
    exact hkd
  obtain ⟨j, hj, hjd, hval⟩ :=
    reassignIndex_spec (dates.map (fun d => Visit.mk none sentinel d d)) base e hmem
  have hjlt : j < dates.length := by simpa using hj
  have hdj : dates.get ⟨j, hjlt⟩ = e.start_date := by
    rw [List.get_eq_getElem] at hjd ⊢
    simpa using hjd
  have hjk : j = k := by
    have := List.Nodup.get_inj_iff hnd (i := ⟨j, hjlt⟩) (j := ⟨k, hk⟩)
    have heq : dates.get ⟨j, hjlt⟩ = dates.get ⟨k, hk⟩ := by rw [hdj, hkd]
    simpa using this.mp heq
  subst hjk
  exact hval

lemma processTable_eq_empty (lbd cm : Bool) (sent : Int)
    (st : List Visit × List VisitData) (tbl : DomainTable)
    (hemp : tbl.events.isEmpty = true) :
    processTable lbd cm sent st tbl = st := by
  unfold processTable
  rw [if_pos hemp]

lemma processTable_eq_no_missing (lbd : Bool) (sent : Int)
    (st : List Visit × List VisitData) (tbl : DomainTable)
    (hemp : ¬ tbl.events.isEmpty = true)
    (hany : ¬ ((tablePairs lbd st.1 tbl).any (fun pr => pr.2 == -1)) = true) :
    processTable lbd true sent st tbl =
      (st.1, attachGroups tbl.name (tablePairs lbd st.1 tbl) st.2 0) := by
  unfold processTable
  rw [if_neg hemp, if_pos rfl, if_neg hany]

lemma processTable_eq_missing (lbd : Bool) (sent : Int)
    (st : List Visit × List VisitData) (tbl : DomainTable)
    (hemp : ¬ tbl.events.isEmpty = true)
    (hany : ((tablePairs lbd st.1 tbl).any (fun pr => pr.2 == -1)) = true) :
    processTable lbd true sent st tbl =
      (st.1 ++ missingVisits sent (missingDates (tablePairs lbd st.1 tbl)),
       attachGroups tbl.name
         ((tablePairs lbd st.1 tbl).map (fun pr =>
           if pr.2 == -1 then
             (pr.1, reassignIndex
               (missingVisits sent (missingDates (tablePairs lbd st.1 tbl)))
               st.1.length pr.1)
           else pr))
         (st.2 ++ (missingVisits sent (missingDates (tablePairs lbd st.1 tbl))).map
           (fun mv => VisitData.mk mv []))
         0) := by
  unfold processTable
  rw [if_neg hemp, if_pos rfl, if_pos hany]

/-- The invariant maintained by the domain-table loop of `group_by_visit`
when date linking and missing-visit creation are both on: the visits frame is
the real visits followed by the synthesized ones; every synthesized visit has
a NaN visit id, the sentinel concept id and a single-day span; synthesized
start dates are pairwise distinct; `visit_datas` stays aligned with `visits`;
every event attached to a synthesized visit happens exactly on its start
date; and every synthesized visit has at least one attached event. -/
def GInv (realVisits : List Visit) (sentinel : Int)
    (st : List Visit × List VisitData) : Prop :=
  st.1.take realVisits.length = realVisits ∧
  (∀ v ∈ st.1.drop realVisits.length,
      v.visit_occurrence_id = none ∧ v.visit_concept_id = sentinel ∧
      v.visit_end_date = v.visit_start_date) ∧
  ((st.1.drop realVisits.length).map Visit.visit_start_date).Nodup ∧
  st.2.length = st.1.length ∧
  (∀ i, ∀ h1 : i < st.2.length, ∀ h2 : i < st.1.length,
      (st.2.get ⟨i, h1⟩).visit = st.1.get ⟨i, h2⟩) ∧
  (∀ i, ∀ h1 : i < st.2.length, realVisits.length ≤ i →
      (∀ nm es, (nm, es) ∈ (st.2.get ⟨i, h1⟩).cdm_tables →
        ∀ e ∈ es, e.start_date = (st.2.get ⟨i, h1⟩).visit.visit_start_date) ∧
      (st.2.get ⟨i, h1⟩).cdm_tables ≠ [])

lemma syn_at_index {realVisits : List Visit} {sentinel : Int}
    {visits : List Visit}
    (hdrop : ∀ v ∈ visits.drop realVisits.length,
      v.visit_occurrence_id = none ∧ v.visit_concept_id = sentinel ∧
      v.visit_end_date = v.visit_start_date)
    {i : Nat} (h2 : i < visits.length) (hge : realVisits.length ≤ i) :
    (visits.get ⟨i, h2⟩).visit_occurrence_id = none ∧
    (visits.get ⟨i, h2⟩).visit_concept_id = sentinel ∧
    (visits.get ⟨i, h2⟩).visit_end_date
      = (visits.get ⟨i, h2⟩).visit_start_date := by
  apply hdrop
  rw [List.get_eq_getElem]
  have hlt : i - realVisits.length
      < (visits.drop realVisits.length).length := by
    rw [List.length_drop]; omega
  have heq : (visits.drop realVisits.length)[i - realVisits.length]
      = visits[i] := by
    rw [List.getElem_drop]
    congr 1
    omega
  rw [← heq]
  exact List.getElem_mem _

lemma mem_tablePairs {lbd : Bool} {visits : List Visit} {tbl : DomainTable}
    {pr : Event × Int} (h : pr ∈ tablePairs lbd visits tbl) :
    pr.1 ∈ tbl.events ∧
      pr.2 = eventVisitIndex lbd tbl.has_voi visits pr.1 := by
  unfold tablePairs at h
  obtain ⟨e, he, heq⟩ := List.mem_map.mp h
  subst heq
  exact ⟨he, rfl⟩

lemma mem_missingDates {pairs : List (Event × Int)} {d : Int} :
    d ∈ missingDates pairs ↔
      ∃ pr ∈ pairs, pr.2 = -1 ∧ pr.1.start_date = d := by
  unfold missingDates
  rw [mem_dedupFirst]
  constructor
  · intro h
    obtain ⟨pr, hpr, heq⟩ := List.mem_map.mp h
    have hf := List.mem_filter.mp hpr
    exact ⟨pr, hf.1, by simpa using hf.2, heq⟩
  · rintro ⟨pr, hpr, h2, h3⟩
    exact List.mem_map.mpr ⟨pr, List.mem_filter.mpr ⟨hpr, by simpa using h2⟩, h3⟩

lemma attached_event_date {realVisits : List Visit} {sentinel : Int}
    {visits : List Visit}
    (hdrop : ∀ v ∈ visits.drop realVisits.length,
      v.visit_occurrence_id = none ∧ v.visit_concept_id = sentinel ∧
      v.visit_end_date = v.visit_start_date)
    {hv : Bool} {e : Event} {i : Nat} (hge : realVisits.length ≤ i)
    (hevi : eventVisitIndex true hv visits e = Int.ofNat i) :
    ∀ h2 : i < visits.length,
      e.start_date = (visits.get ⟨i, h2⟩).visit_start_date := by
  exact evi_synthetic_date
    (fun h => (syn_at_index hdrop h hge).1)
    (fun h => (syn_at_index hdrop h hge).2.2) hevi

lemma processTable_GInv_no_missing {realVisits : List Visit} {sentinel : Int}
    {visits : List Visit} {vds : List VisitData} (tbl : DomainTable)
    (htake : visits.take realVisits.length = realVisits)
    (hdrop : ∀ v ∈ visits.drop realVisits.length,
      v.visit_occurrence_id = none ∧ v.visit_concept_id = sentinel ∧
      v.visit_end_date = v.visit_start_date)
    (hnd : ((visits.drop realVisits.length).map Visit.visit_start_date).Nodup)
    (hlen : vds.length = visits.length)
    (halign : ∀ i, ∀ h1 : i < vds.length, ∀ h2 : i < visits.length,
      (vds.get ⟨i, h1⟩).visit = visits.get ⟨i, h2⟩)
    (hsynvd : ∀ i, ∀ h1 : i < vds.length, realVisits.length ≤ i →
      (∀ nm es, (nm, es) ∈ (vds.get ⟨i, h1⟩).cdm_tables →
        ∀ e ∈ es, e.start_date = (vds.get ⟨i, h1⟩).visit.visit_start_date) ∧
      (vds.get ⟨i, h1⟩).cdm_tables ≠ []) :
    GInv realVisits sentinel
      (visits, attachGroups tbl.name (tablePairs true visits tbl) vds 0) := by
  refine ⟨htake, hdrop, hnd, ?_, ?_, ?_⟩
  · show (attachGroups tbl.name (tablePairs true visits tbl) vds 0).length
      = visits.length
    rw [attachGroups_length]; exact hlen
  · intro i h1 h2
    have h1' : i < vds.length := by
      have := h1
      rwa [show ((visits, attachGroups tbl.name (tablePairs true visits tbl)
        vds 0) : List Visit × List VisitData).2.length
        = vds.length from attachGroups_length _ _ _ _] at this
    show ((attachGroups tbl.name (tablePairs true visits tbl) vds 0).get
      ⟨i, h1⟩).visit = visits.get ⟨i, h2⟩
    rw [attachGroups_getElem tbl.name (tablePairs true visits tbl) vds 0 i h1' h1]
    split_ifs
    · exact halign i h1' h2
    · exact halign i h1' h2
  · intro i h1 hge
    have h1' : i < vds.length := by
      have := h1
      rwa [show ((visits, attachGroups tbl.name (tablePairs true visits tbl)
        vds 0) : List Visit × List VisitData).2.length
        = vds.length from attachGroups_length _ _ _ _] at this
    have h2 : i < visits.length := hlen ▸ h1'
    show (∀ nm es, (nm, es) ∈ ((attachGroups tbl.name (tablePairs true visits tbl)
        vds 0).get ⟨i, h1⟩).cdm_tables →
        ∀ e ∈ es, e.start_date = ((attachGroups tbl.name
          (tablePairs true visits tbl) vds 0).get
          ⟨i, h1⟩).visit.visit_start_date) ∧
      ((attachGroups tbl.name (tablePairs true visits tbl) vds 0).get
        ⟨i, h1⟩).cdm_tables ≠ []
    rw [attachGroups_getElem tbl.name (tablePairs true visits tbl) vds 0 i h1' h1]
    by_cases hes : (((tablePairs true visits tbl).filter
        (fun pr => pr.2 == Int.ofNat (0 + i))).map Prod.fst).isEmpty = true
    · rw [if_pos hes]
      exact hsynvd i h1' hge
    · rw [if_neg hes]
      constructor
      · intro nm es hmem e he
        have hmem2 : (nm, es) ∈ (vds.get ⟨i, h1'⟩).cdm_tables ++
            [(tbl.name, ((tablePairs true visits tbl).filter
              (fun pr => pr.2 == Int.ofNat (0 + i))).map Prod.fst)] := hmem
        rw [List.mem_append] at hmem2
        rcases hmem2 with hold | hnew
        · exact (hsynvd i h1' hge).1 nm es hold e he
        · rw [List.mem_singleton] at hnew
          injection hnew with hnm hes2
          subst hes2
          obtain ⟨pr, hprf, hpre⟩ := List.mem_map.mp he
          obtain ⟨hpr_mem, hpr_idx⟩ := List.mem_filter.mp hprf
          have hm := mem_tablePairs hpr_mem
          have hevi : eventVisitIndex true tbl.has_voi visits pr.1
              = Int.ofNat i := by
            rw [← hm.2]
            have : pr.2 = Int.ofNat (0 + i) := by simpa using hpr_idx
            rw [this]
            congr 1
            omega
          have hdate := attached_event_date hdrop hge hevi h2
          show e.start_date = (vds.get ⟨i, h1'⟩).visit.visit_start_date
          rw [← hpre, halign i h1' h2]
          exact hdate
      · show (vds.get ⟨i, h1'⟩).cdm_tables ++ [_] ≠ []
        simp

lemma processTable_GInv_missing {realVisits : List Visit} {sentinel : Int}
    {visits : List Visit} {vds : List VisitData} (tbl : DomainTable)
    (htake : visits.take realVisits.length = realVisits)
    (hdrop : ∀ v ∈ visits.drop realVisits.length,
      v.visit_occurrence_id = none ∧ v.visit_concept_id = sentinel ∧
      v.visit_end_date = v.visit_start_date)
    (hnd : ((visits.drop realVisits.length).map Visit.visit_start_date).Nodup)
    (hlen : vds.length = visits.length)
    (halign : ∀ i, ∀ h1 : i < vds.length, ∀ h2 : i < visits.length,
      (vds.get ⟨i, h1⟩).visit = visits.get ⟨i, h2⟩)
    (hsynvd : ∀ i, ∀ h1 : i < vds.length, realVisits.length ≤ i →
      (∀ nm es, (nm, es) ∈ (vds.get ⟨i, h1⟩).cdm_tables →
        ∀ e ∈ es, e.start_date = (vds.get ⟨i, h1⟩).visit.visit_start_date) ∧
      (vds.get ⟨i, h1⟩).cdm_tables ≠ []) :
    GInv realVisits sentinel
      (visits ++ missingVisits sentinel (missingDates (tablePairs true visits tbl)),
       attachGroups tbl.name
         ((tablePairs true visits tbl).map (fun pr =>
           if pr.2 == -1 then
             (pr.1, reassignIndex
               (missingVisits sentinel (missingDates (tablePairs true visits tbl)))
               visits.length pr.1)
           else pr))
         (vds ++ (missingVisits sentinel
           (missingDates (tablePairs true visits tbl))).map
           (fun mv => VisitData.mk mv []))
         0) := by
  set pairsT := tablePairs true visits tbl with hpairsT
  set datesT := missingDates pairsT with hdatesT
  set mvsT := missingVisits sentinel datesT with hmvsT
  set pairs2T := pairsT.map (fun pr =>
    if pr.2 == -1 then
      (pr.1, reassignIndex mvsT visits.length pr.1)
    else pr) with hpairs2T
  set vds2T := vds ++ mvsT.map (fun mv => VisitData.mk mv []) with hvds2T
  have hrl_le : realVisits.length ≤ visits.length := by
    have h := congrArg List.length htake
    simp only [List.length_take] at h
    omega
  have hmvs_len : mvsT.length = datesT.length := by
    rw [hmvsT]; unfold missingVisits; simp
  have hnd_dates : datesT.Nodup := by
    rw [hdatesT]; unfold missingDates; exact dedupFirst_nodup _
  have hmap_mvs : mvsT.map Visit.visit_start_date = datesT := by
    rw [hmvsT]; unfold missingVisits
    rw [List.map_map]
    show datesT.map (fun d => d) = datesT
    simp
  have hmvs_props : ∀ v ∈ mvsT, v.visit_occurrence_id = none ∧
      v.visit_concept_id = sentinel ∧ v.visit_end_date = v.visit_start_date := by
    rw [hmvsT]; unfold missingVisits
    intro v hv
    obtain ⟨d, -, rfl⟩ := List.mem_map.mp hv
    exact ⟨rfl, rfl, rfl⟩
  have hmvs_get_start : ∀ j, ∀ hjm : j < mvsT.length, ∀ hjd : j < datesT.length,
      (mvsT.get ⟨j, hjm⟩).visit_start_date = datesT.get ⟨j, hjd⟩ := by
    intro j hjm hjd
    have hjm2 : j < (missingVisits sentinel datesT).length := by
      rw [← hmvsT]; exact hjm
    have : mvsT.get ⟨j, hjm⟩ = (missingVisits sentinel datesT).get ⟨j, hjm2⟩ := by
      congr 1
    rw [this]
    unfold missingVisits
    simp [List.get_eq_getElem]
  have hdate_unassigned : ∀ d ∈ datesT, ∃ e ∈ tbl.events,
      eventVisitIndex true tbl.has_voi visits e = -1 ∧ e.start_date = d := by
    intro d hd
    rw [hdatesT] at hd
    obtain ⟨pr, hpr, hpr2, hpr3⟩ := mem_missingDates.mp hd
    have hm := mem_tablePairs (hpairsT ▸ hpr)
    exact ⟨pr.1, hm.1, by rw [← hm.2]; exact hpr2, hpr3⟩
  have hdisj : ∀ a ∈ (visits.drop realVisits.length).map Visit.visit_start_date,
      a ∉ datesT := by
    intro a ha hain
    obtain ⟨v, hvmem, rfl⟩ := List.mem_map.mp ha
    obtain ⟨e, -, hevi, hed⟩ := hdate_unassigned _ hain
    obtain ⟨k, hk, hkeq⟩ := List.mem_iff_getElem.mp hvmem
    have hik : realVisits.length + k < visits.length := by
      rw [List.length_drop] at hk; omega
    have hgetv : visits.get ⟨realVisits.length + k, hik⟩ = v := by
      rw [List.get_eq_getElem, ← hkeq, List.getElem_drop]
    have hend := (hdrop v hvmem).2.2
    have hne := evi_neg_one_date hik (by rw [hgetv]; exact hend) hevi
    rw [hgetv] at hne
    exact hne hed
  have hlen2 : vds2T.length = (visits ++ mvsT).length := by
    rw [hvds2T]
    simp [hlen]
  have hvisit_all : ∀ i, ∀ h1 : i < vds2T.length,
      ∀ h2 : i < (visits ++ mvsT).length,
      (vds2T.get ⟨i, h1⟩).visit = (visits ++ mvsT).get ⟨i, h2⟩ := by
    intro i h1 h2
    rcases lt_or_ge i vds.length with hiv | hiv
    · have hivv : i < visits.length := hlen ▸ hiv
      have hget1 : vds2T.get ⟨i, h1⟩ = vds.get ⟨i, hiv⟩ := by
        show (vds ++ mvsT.map (fun mv => VisitData.mk mv [])).get ⟨i, h1⟩
          = vds.get ⟨i, hiv⟩
        rw [List.get_eq_getElem, List.get_eq_getElem,
          List.getElem_append_left hiv]
      have hget2 : (visits ++ mvsT).get ⟨i, h2⟩ = visits.get ⟨i, hivv⟩ := by
        rw [List.get_eq_getElem, List.get_eq_getElem,
          List.getElem_append_left hivv]
      rw [hget1, hget2]
      exact halign i hiv hivv
    · have hivv : visits.length ≤ i := hlen ▸ hiv
      have hk : i - vds.length < mvsT.length := by
        rw [hvds2T] at h1; simp at h1; omega
      have hk2 : i - visits.length < mvsT.length := by
        rw [← hlen]; exact hk
      have hget1 : vds2T.get ⟨i, h1⟩
          = VisitData.mk (mvsT.get ⟨i - vds.length, hk⟩) [] := by
        show (vds ++ mvsT.map (fun mv => VisitData.mk mv [])).get ⟨i, h1⟩ = _
        rw [List.get_eq_getElem, List.getElem_append_right hiv]
        simp [List.get_eq_getElem]
      have hget2 : (visits ++ mvsT).get ⟨i, h2⟩
          = mvsT.get ⟨i - visits.length, hk2⟩ := by
        rw [List.get_eq_getElem, List.get_eq_getElem,
          List.getElem_append_right hivv]
      rw [hget1, hget2]
      show mvsT.get ⟨i - vds.length, hk⟩ = mvsT.get ⟨i - visits.length, hk2⟩
      refine congrArg mvsT.get (Fin.ext ?_)
      show i - vds.length = i - visits.length
      omega
  refine ⟨?_, ?_, ?_, ?_, ?_, ?_⟩
  · show (visits ++ mvsT).take realVisits.length = realVisits
    rw [List.take_append_of_le_length hrl_le]
    exact htake
  · show ∀ v ∈ (visits ++ mvsT).drop realVisits.length, _
    rw [List.drop_append_of_le_length hrl_le]
    intro v hv
    rcases List.mem_append.mp hv with h | h
    · exact hdrop v h
    · exact hmvs_props v h
  · show (((visits ++ mvsT).drop realVisits.length).map
      Visit.visit_start_date).Nodup
    rw [List.drop_append_of_le_length hrl_le, List.map_append, hmap_mvs]
    exact List.Nodup.append hnd hnd_dates hdisj
  · show (attachGroups tbl.name pairs2T vds2T 0).length
      = (visits ++ mvsT).length
    rw [attachGroups_length]
    exact hlen2
  · intro i h1 h2
    have h1' : i < vds2T.length := by rwa [attachGroups_length] at h1
    show ((attachGroups tbl.name pairs2T vds2T 0).get ⟨i, h1⟩).visit
      = (visits ++ mvsT).get ⟨i, h2⟩
    rw [attachGroups_getElem tbl.name pairs2T vds2T 0 i h1' h1]
    split_ifs
    · exact hvisit_all i h1' h2
    · exact hvisit_all i h1' h2
  · intro i h1 hge
    have h1' : i < vds2T.length := by rwa [attachGroups_length] at h1
    have h2 : i < (visits ++ mvsT).length := hlen2 ▸ h1'
    have hp2date : ∀ pr2 ∈ pairs2T, pr2.2 = Int.ofNat i →
        pr2.1.start_date = ((visits ++ mvsT).get ⟨i, h2⟩).visit_start_date := by
      intro pr2 hpr2 hval
      rw [hpairs2T] at hpr2
      obtain ⟨pr, hpr, heq⟩ := List.mem_map.mp hpr2
      have hm := mem_tablePairs (hpairsT ▸ hpr)
      by_cases hneg : (pr.2 == -1) = true
      · rw [if_pos hneg] at heq
        subst heq
        have hpr2eq : pr.2 = -1 := by simpa using hneg
        have hevi_neg : eventVisitIndex true tbl.has_voi visits pr.1 = -1 := by
          rw [← hm.2]; exact hpr2eq
        have hdmem : pr.1.start_date ∈ datesT := by
          rw [hdatesT, hpairsT]
          exact mem_missingDates.mpr ⟨pr, hpairsT ▸ hpr, hpr2eq, rfl⟩
        obtain ⟨kk, hkk, hkkeq⟩ := List.mem_iff_getElem.mp hdmem
        have hkkm : kk < mvsT.length := by rw [hmvs_len]; exact hkk
        have hex : ∃ j, ∃ hj : j < mvsT.length,
            (mvsT.get ⟨j, hj⟩).visit_start_date = pr.1.start_date := by
          refine ⟨kk, hkkm, ?_⟩
          rw [hmvs_get_start kk hkkm hkk, List.get_eq_getElem]
          exact hkkeq
        obtain ⟨j, hj, hjdate, hjval⟩ :=
          reassignIndex_spec mvsT visits.length pr.1 hex
        have hij : i = visits.length + j := by
          simp only at hval
          rw [hjval, Int.ofNat_eq_natCast, Int.ofNat_eq_natCast] at hval
          exact_mod_cast hval.symm
        have hbound : i - visits.length < mvsT.length := by omega
        have happ : (visits ++ mvsT).get ⟨i, h2⟩
            = mvsT.get ⟨i - visits.length, hbound⟩ := by
          have hle : visits.length ≤ i := by omega
          rw [List.get_eq_getElem, List.get_eq_getElem]
          exact List.getElem_append_right hle
        rw [happ]
        have hfin : mvsT.get ⟨i - visits.length, hbound⟩ = mvsT.get ⟨j, hj⟩ := by
          refine congrArg mvsT.get (Fin.ext ?_)
          show i - visits.length = j
          omega
        rw [hfin]
        exact hjdate.symm
      · rw [if_neg hneg] at heq
        subst heq
        have hevi : eventVisitIndex true tbl.has_voi visits pr.1
            = Int.ofNat i := by
          rw [← hm.2]; exact hval
        have hlt : i < visits.length := (eventVisitIndex_nonneg hevi).1
        have hd := attached_event_date hdrop hge hevi hlt
        rw [List.get_eq_getElem, List.getElem_append_left hlt]
        simp only [List.get_eq_getElem] at hd
        exact hd
    show (∀ nm es, (nm, es) ∈ ((attachGroups tbl.name pairs2T vds2T 0).get
        ⟨i, h1⟩).cdm_tables → ∀ e ∈ es,
        e.start_date = ((attachGroups tbl.name pairs2T vds2T 0).get
          ⟨i, h1⟩).visit.visit_start_date) ∧
      ((attachGroups tbl.name pairs2T vds2T 0).get ⟨i, h1⟩).cdm_tables ≠ []
    rw [attachGroups_getElem tbl.name pairs2T vds2T 0 i h1' h1]
    rcases lt_or_ge i vds.length with hiv | hiv
    · have hvds_get : vds2T.get ⟨i, h1'⟩ = vds.get ⟨i, hiv⟩ := by
        show (vds ++ mvsT.map (fun mv => VisitData.mk mv [])).get ⟨i, h1'⟩
          = vds.get ⟨i, hiv⟩
        rw [List.get_eq_getElem, List.get_eq_getElem,
          List.getElem_append_left hiv]
      by_cases hes : ((pairs2T.filter
          (fun pr => pr.2 == Int.ofNat (0 + i))).map Prod.fst).isEmpty = true
      · rw [if_pos hes]
        rw [hvds_get]
        exact hsynvd i hiv hge
      · rw [if_neg hes]
        constructor
        · intro nm es hmem e he
          have hmem2 : (nm, es) ∈ (vds2T.get ⟨i, h1'⟩).cdm_tables ++
              [(tbl.name, ((pairs2T.filter
                (fun pr => pr.2 == Int.ofNat (0 + i))).map Prod.fst))] := hmem
          rw [List.mem_append] at hmem2
          rcases hmem2 with hold | hnew
          · rw [hvds_get] at hold
            have hres := (hsynvd i hiv hge).1 nm es hold e he
            show e.start_date = (vds2T.get ⟨i, h1'⟩).visit.visit_start_date
            rw [hvds_get]
            exact hres
          · rw [List.mem_singleton] at hnew
            injection hnew with hnm hes2
            subst hes2
            obtain ⟨pr2, hprf, hpre⟩ := List.mem_map.mp he
            obtain ⟨hpr2_mem, hpr2_idx⟩ := List.mem_filter.mp hprf
            have hidx : pr2.2 = Int.ofNat i := by
              have := hpr2_idx
              simp only [beq_iff_eq] at this
              rw [this]
              congr 1
              omega
            have hres := hp2date pr2 hpr2_mem hidx
            show e.start_date = (vds2T.get ⟨i, h1'⟩).visit.visit_start_date
            rw [hvisit_all i h1' h2, ← hpre]
            exact hres
        · show (vds2T.get ⟨i, h1'⟩).cdm_tables ++ [_] ≠ []
          simp
    · have hivv : visits.length ≤ i := hlen ▸ hiv
      have hk : i - vds.length < mvsT.length := by
        rw [hvds2T] at h1'; simp at h1'; omega
      have hkd : i - vds.length < datesT.length := by
        rw [← hmvs_len]; exact hk
      have hvds_get : vds2T.get ⟨i, h1'⟩
          = VisitData.mk (mvsT.get ⟨i - vds.length, hk⟩) [] := by
        show (vds ++ mvsT.map (fun mv => VisitData.mk mv [])).get ⟨i, h1'⟩ = _
        rw [List.get_eq_getElem, List.getElem_append_right hiv]
        simp [List.get_eq_getElem]
      obtain ⟨e0, he0mem, he0evi, he0date⟩ :=
        hdate_unassigned (datesT.get ⟨i - vds.length, hkd⟩)
          (List.get_mem _ _ hkd)
      have he0pair : (e0, (-1 : Int)) ∈ pairsT := by
        rw [hpairsT]; unfold tablePairs
        exact List.mem_map.mpr ⟨e0, he0mem, by rw [he0evi]⟩
      have he0pair2 : (e0, reassignIndex mvsT visits.length e0) ∈ pairs2T := by
        rw [hpairs2T]
        exact List.mem_map.mpr ⟨(e0, -1), he0pair, by simp⟩
      have hreassign : reassignIndex mvsT visits.length e0
          = Int.ofNat (visits.length + (i - vds.length)) := by
        rw [hmvsT]; unfold missingVisits
        exact reassignIndex_dates (i - vds.length) hkd he0date.symm hnd_dates
      have harith : visits.length + (i - vds.length) = 0 + i := by omega
      have hne : ¬ ((pairs2T.filter
          (fun pr => pr.2 == Int.ofNat (0 + i))).map Prod.fst).isEmpty = true := by
        intro hcon
        have hmm : (e0, reassignIndex mvsT visits.length e0) ∈
            pairs2T.filter (fun pr => pr.2 == Int.ofNat (0 + i)) := by
          refine List.mem_filter.mpr ⟨he0pair2, ?_⟩
          show (reassignIndex mvsT visits.length e0 == Int.ofNat (0 + i)) = true
          rw [hreassign, harith]
          simp
        rw [List.isEmpty_iff] at hcon
        have hfil : pairs2T.filter (fun pr => pr.2 == Int.ofNat (0 + i)) = [] :=
          List.map_eq_nil_iff.mp hcon
        rw [hfil] at hmm
        simp at hmm
      rw [if_neg hne]
      constructor
      · intro nm es hmem e he
        have hmem2 : (nm, es) ∈ (vds2T.get ⟨i, h1'⟩).cdm_tables ++
            [(tbl.name, ((pairs2T.filter
              (fun pr => pr.2 == Int.ofNat (0 + i))).map Prod.fst))] := hmem
        rw [hvds_get] at hmem2
        have hmem3 : (nm, es) ∈ [(tbl.name, ((pairs2T.filter
            (fun pr => pr.2 == Int.ofNat (0 + i))).map Prod.fst))] := hmem2
        rw [List.mem_singleton] at hmem3
        injection hmem3 with hnm hes2
        subst hes2
        obtain ⟨pr2, hprf, hpre⟩ := List.mem_map.mp he
        obtain ⟨hpr2_mem, hpr2_idx⟩ := List.mem_filter.mp hprf
        have hidx : pr2.2 = Int.ofNat i := by
          have := hpr2_idx
          simp only [beq_iff_eq] at this
          rw [this]
          congr 1
          omega
        have hres := hp2date pr2 hpr2_mem hidx
        show e.start_date = (vds2T.get ⟨i, h1'⟩).visit.visit_start_date
        rw [hvisit_all i h1' h2, ← hpre]
        exact hres
      · show (vds2T.get ⟨i, h1'⟩).cdm_tables ++ [_] ≠ []
        simp

lemma processTable_GInv {realVisits : List Visit} {sentinel : Int}
    {st : List Visit × List VisitData} (tbl : DomainTable)
    (hinv : GInv realVisits sentinel st) :
    GInv realVisits sentinel (processTable true true sentinel st tbl) := by
  obtain ⟨htake, hdrop, hnd, hlen, halign, hsynvd⟩ := hinv
  by_cases hemp : tbl.events.isEmpty = true
  · rw [processTable_eq_empty true true sentinel st tbl hemp]
    exact ⟨htake, hdrop, hnd, hlen, halign, hsynvd⟩
  · by_cases hany :
      ((tablePairs true st.1 tbl).any (fun pr => pr.2 == -1)) = true
    · rw [processTable_eq_missing true sentinel st tbl hemp hany]
      exact processTable_GInv_missing tbl htake hdrop hnd hlen halign hsynvd
    · rw [processTable_eq_no_missing true sentinel st tbl hemp hany]
      exact processTable_GInv_no_missing tbl htake hdrop hnd hlen halign hsynvd

lemma group_by_visit_state_GInv (sentinel : Int) (realVisits : List Visit)
    (tables : List DomainTable) :
    GInv realVisits sentinel
      (group_by_visit_state true true sentinel realVisits tables) := by
  have hinit : GInv realVisits sentinel
      (realVisits, realVisits.map (fun v => VisitData.mk v [])) := by
    refine ⟨?_, ?_, ?_, ?_, ?_, ?_⟩
    · show realVisits.take realVisits.length = realVisits
      exact List.take_length realVisits
    · show ∀ v ∈ realVisits.drop realVisits.length, _
      rw [List.drop_length]
      intro v hv
      simp at hv
    · show ((realVisits.drop realVisits.length).map Visit.visit_start_date).Nodup
      rw [List.drop_length]
      exact List.nodup_nil
    · show (realVisits.map (fun v => VisitData.mk v [])).length
        = realVisits.length
      simp
    · intro i h1 h2
      show ((realVisits.map (fun v => VisitData.mk v [])).get ⟨i, h1⟩).visit
        = realVisits.get ⟨i, h2⟩
      rw [List.get_eq_getElem, List.get_eq_getElem]
      simp
    · intro i h1 hge
      have hcon : i < realVisits.length := by simpa using h1
      omega
  have hall : ∀ (ts : List DomainTable) (st : List Visit × List VisitData),
      GInv realVisits sentinel st →
      GInv realVisits sentinel
        (ts.foldl (processTable true true sentinel) st) := by
    intro ts
    induction ts with
    | nil => intro st h; exact h
    | cons t rest ih => intro st h; exact ih _ (processTable_GInv t h)
  exact hall tables _ hinit

/-- C7 counterexample: with date linking disabled (and synthesis enabled),
two domain tables each holding one event on day 5 that matches no visit
produce two synthetic visits for the one distinct date 5 — not exactly one
synthetic visit per distinct date of unassigned events. -/
theorem C7_counterexample :
    ((group_by_visit_state false true 0 []
        [⟨"condition_occurrence", true, [⟨some 1, 100, 5⟩]⟩,
         ⟨"drug_exposure", true, [⟨some 2, 200, 5⟩]⟩]).1).map
        Visit.visit_start_date = [5, 5] ∧
    ¬ (((group_by_visit_state false true 0 []
        [⟨"condition_occurrence", true, [⟨some 1, 100, 5⟩]⟩,
         ⟨"drug_exposure", true, [⟨some 2, 200, 5⟩]⟩]).1).map
        Visit.visit_start_date).Nodup :=
  ⟨by decide, by decide⟩

/-- C7 (amended): in `group_by_visit` with synthesis enabled *and date
linking enabled*, exactly one synthetic single-day visit is created per
distinct date of unassigned events (per person): the visits frame is the real
visits followed by the synthesized ones; every synthesized visit carries a
NaN visit-occurrence id, the configured sentinel visit-type concept id and an
end date equal to its start date; synthesized start dates are pairwise
distinct; every synthesized visit has at least one assigned event; every
event assigned to a synthesized visit has that visit's start date exactly
equal to the event's own start date; and the sorted `group_by_visit` output
is a permutation of the constructed visit-data list.  (With date linking
disabled, a separate synthetic visit can be created per domain table for the
same date.) -/
theorem C7_synthetic_visits (sentinel : Int) (realVisits : List Visit)
    (tables : List DomainTable) :
    ((group_by_visit_state true true sentinel realVisits tables).1.take
        realVisits.length = realVisits) ∧
    (∀ v ∈ (group_by_visit_state true true sentinel realVisits tables).1.drop
        realVisits.length,
      v.visit_occurrence_id = none ∧ v.visit_concept_id = sentinel ∧
        v.visit_end_date = v.visit_start_date) ∧
    (((group_by_visit_state true true sentinel realVisits tables).1.drop
        realVisits.length).map Visit.visit_start_date).Nodup ∧
    (∀ i, ∀ h1 : i < (group_by_visit_state true true sentinel realVisits
        tables).2.length, realVisits.length ≤ i →
      (∀ nm es, (nm, es) ∈ (((group_by_visit_state true true sentinel
          realVisits tables).2).get ⟨i, h1⟩).cdm_tables →
        ∀ e ∈ es, e.start_date = (((group_by_visit_state true true sentinel
          realVisits tables).2).get ⟨i, h1⟩).visit.visit_start_date) ∧
      (((group_by_visit_state true true sentinel realVisits
        tables).2).get ⟨i, h1⟩).cdm_tables ≠ []) ∧
    (group_by_visit true true sentinel realVisits tables).Perm
      (group_by_visit_state true true sentinel realVisits tables).2 := by
  obtain ⟨h1, h2, h3, -, -, h6⟩ :=
    group_by_visit_state_GInv sentinel realVisits tables
  refine ⟨h1, h2, h3, h6, ?_⟩
  unfold group_by_visit
  exact stableSort_perm _ _

theorem C7_synthetic_visits_witness :
    (((group_by_visit_state true true 0 []
      [⟨"condition_occurrence", true, [⟨none, 100, 7⟩]⟩]).2).get
      ⟨0, by decide⟩).cdm_tables ≠ [] := by
  have h := C7_synthetic_visits 0 []
    [⟨"condition_occurrence", true, [⟨none, 100, 7⟩]⟩]
  exact (h.2.2.2.1 0 (by decide) (by decide)).2

/-! ## The sequence token builder
(`cehr_bert_cdm_processor.py`, lines 39-137, and `union_domain_tables` /
`load_mapping_to_ingredients` from `cdm_processing/cdm_processor_utils.py`) -/

/-- The `DOMAIN_TABLES` constant of `cdm_processor_utils.py`. -/
def DOMAIN_TABLES : List String :=
  ["condition_occurrence", "drug_exposure", "procedure_occurrence",
   "device_exposure", "measurement", "observation", "death"]

/-- The standard concept id assigned to death events. -/
def DEATH_CONCEPT_ID : Int := 4306655

/-- `union_domain_tables(cdm_tables)` (lines 119-156): concatenates the
`(concept_id, start_date)` columns of the present domain tables in
`DOMAIN_TABLES` order; death rows get the fixed `DEATH_CONCEPT_ID`. -/
def union_domain_tables (cdm_tables : List (String × List Event)) :
    List Event :=
  DOMAIN_TABLES.flatMap (fun name =>
    match cdm_tables.find? (fun nt => nt.1 == name) with
    | none => []
    | some nt =>
      if name == "death" then
        nt.2.map (fun e => { e with concept_id := DEATH_CONCEPT_ID })
      else nt.2)

/-- `event_table.sort_values([START_DATE, CONCEPT_ID], ascending=True)`:
sort the union ascending by (start date, concept id). -/
def sortEvents (events : List Event) : List Event :=
  stableSort (fun a b =>
    decide (a.start_date < b.start_date) ||
    (a.start_date == b.start_date && decide (a.concept_id < b.concept_id)))
    events

/-- `EPOCH = dt.date(1970, 1, 1)`, i.e. day number 0. -/
def EPOCH : Int := 0

/-- The six per-token arrays accumulated by `_process_observation_period`. -/
structure SeqState where
  concept_ids : List String
  visit_segments : List Int
  dates : List Int
  ages : List Int
  visit_concept_orders : List Int
  visit_concept_ids : List Int
deriving DecidableEq, Repr

def emptySeqState : SeqState := ⟨[], [], [], [], [], []⟩

/-- Lines 80-90: the interval token inserted before visit rank > 1, with
segment 0, date 0, age −1, visit-concept-order `visit_rank + 1` and
visit-concept-id 0. -/
def addInterval (visit_rank : Nat) (gap : Int) (s : SeqState) : SeqState :=
  { concept_ids := s.concept_ids ++ [_create_interval_token gap],
    visit_segments := s.visit_segments ++ [0],
    dates := s.dates ++ [0],
    ages := s.ages ++ [-1],
    visit_concept_orders := s.visit_concept_orders ++ [Int.ofNat visit_rank + 1],
    visit_concept_ids := s.visit_concept_ids ++ [0] }

/-- Lines 91-118: the per-visit token block — a VS marker, one token per
sorted union event, a VE marker — with segment `visit_rank % 2 + 1`,
week-offset dates, month ages, visit-concept-order `visit_rank` and the
visit's concept id, each repeated for the whole block. -/
def addVisit (date_of_birth : Int) (visit_rank : Nat) (vd : VisitData)
    (s : SeqState) : SeqState :=
  let event_table := sortEvents (union_domain_tables vd.cdm_tables)
  let visit_end_date := vd.visit.visit_end_date
  { concept_ids := s.concept_ids ++
      ("VS" :: event_table.map (fun e => toString e.concept_id) ++ ["VE"]),
    visit_segments := s.visit_segments ++
      List.replicate (event_table.length + 2) (Int.ofNat (visit_rank % 2) + 1),
    dates := s.dates ++
      (days_to_weeks (vd.visit.visit_start_date - EPOCH)
        :: event_table.map (fun e => days_to_weeks (e.start_date - EPOCH))
        ++ [days_to_weeks (visit_end_date - EPOCH)]),
    ages := s.ages ++
      (days_to_months (vd.visit.visit_start_date - date_of_birth)
        :: event_table.map (fun e => days_to_months (e.start_date - date_of_birth))
        ++ [days_to_months (visit_end_date - date_of_birth)]),
    visit_concept_orders := s.visit_concept_orders ++
      List.replicate (event_table.length + 2) (Int.ofNat visit_rank),
    visit_concept_ids := s.visit_concept_ids ++
      List.replicate (event_table.length + 2) vd.visit.visit_concept_id }

/-- The `for visit_group in cpu.group_by_visit(...)` loop (lines 73-119):
ranks are 1-based; an interval token is inserted before every visit except
the first. -/
def buildLoop (date_of_birth : Int) :
    List VisitData → Nat → Int → SeqState → SeqState
  | [], _, _, s => s
  | vd :: vds, visit_rank, previous_visit_end_date, s =>
    let r := visit_rank + 1
    let s1 := if r > 1 then
        addInterval r (vd.visit.visit_start_date - previous_visit_end_date) s
      else s
    let s2 := addVisit date_of_birth r vd s1
    buildLoop date_of_birth vds r vd.visit.visit_end_date s2

/-- One output row of `_process_observation_period` (lines 121-137). -/
structure OutputRow where
  cohort_member_id : Int
  person_id : Int
  concept_ids : List String
  visit_segments : List Int
  orders : List Int
  dates : List Int
  ages : List Int
  visit_concept_orders : List Int
  num_of_visits : Nat
  num_of_concepts : Nat
  visit_concept_ids : List Int
deriving DecidableEq, Repr

/-- The drug-to-ingredient remap (lines 57-63): a pandas inner `join` of the
drug_exposure frame against the mapping indexed by `drug_concept_id`; each
drug row is replaced by one row per matching mapping entry, its concept id
replaced by the ingredient concept id; unmatched drug rows are dropped.  The
mapping rows are `(drug_concept_id, ingredient_concept_id)` pairs. -/
def mapDrugsToIngredients (mapping : List (Int × Int)) (drugs : List Event) :
    List Event :=
  drugs.flatMap (fun e =>
    (mapping.filter (fun m => m.1 == e.concept_id)).map
      (fun m => { e with concept_id := m.2 }))

/-- `_process_observation_period` (lines 53-137): remap drugs to ingredients,
group events by visit (date linking and missing-visit synthesis on, sentinel
concept id 0), build the token sequence, and assemble the output row.  The
date of birth is the integer day number computed by `get_date_of_birth`. -/
def _process_observation_period (drug_mapping : List (Int × Int))
    (observation_period_id : Int) (person_id : Int) (date_of_birth : Int)
    (realVisits : List Visit) (cdm_tables : List DomainTable) : OutputRow :=
  let cdm_tables2 := cdm_tables.map (fun t =>
    if t.name == "drug_exposure" then
      { t with events := mapDrugsToIngredients drug_mapping t.events }
    else t)
  let vds := group_by_visit true true 0 realVisits cdm_tables2
  let s := buildLoop date_of_birth vds 0 0 emptySeqState
  { cohort_member_id := observation_period_id,
    person_id := person_id,
    concept_ids := s.concept_ids,
    visit_segments := s.visit_segments,
    orders := (List.range' 1 (s.concept_ids.length - 1)).map Int.ofNat,
    dates := s.dates,
    ages := s.ages,
    visit_concept_orders := s.visit_concept_orders,
    num_of_visits := vds.length,
    num_of_concepts := s.concept_ids.length,
    visit_concept_ids := s.visit_concept_ids }

/-- All six per-token arrays have the same length. -/
def seqBalanced (s : SeqState) : Prop :=
  s.visit_segments.length = s.concept_ids.length ∧
  s.dates.length = s.concept_ids.length ∧
  s.ages.length = s.concept_ids.length ∧
  s.visit_concept_orders.length = s.concept_ids.length ∧
  s.visit_concept_ids.length = s.concept_ids.length

lemma addInterval_balanced (r : Nat) (gap : Int) (s : SeqState)
    (h : seqBalanced s) : seqBalanced (addInterval r gap s) := by
  obtain ⟨h1, h2, h3, h4, h5⟩ := h
  refine ⟨?_, ?_, ?_, ?_, ?_⟩ <;>
    simp [addInterval, h1, h2, h3, h4, h5]

lemma addVisit_balanced (dob : Int) (r : Nat) (vd : VisitData) (s : SeqState)
    (h : seqBalanced s) : seqBalanced (addVisit dob r vd s) := by
  obtain ⟨h1, h2, h3, h4, h5⟩ := h
  refine ⟨?_, ?_, ?_, ?_, ?_⟩ <;>
    (simp [addVisit, h1, h2, h3, h4, h5]; try omega)

lemma buildLoop_balanced (dob : Int) : ∀ (vds : List VisitData) (rank : Nat)
    (prev : Int) (s : SeqState), seqBalanced s →
    seqBalanced (buildLoop dob vds rank prev s) := by
  intro vds
  induction vds with
  | nil => intro rank prev s h; exact h
  | cons vd rest ih =>
    intro rank prev s h
    have hstep : buildLoop dob (vd :: rest) rank prev s
        = buildLoop dob rest (rank + 1) vd.visit.visit_end_date
          (addVisit dob (rank + 1) vd
            (if rank + 1 > 1 then
              addInterval (rank + 1) (vd.visit.visit_start_date - prev) s
            else s)) := rfl
    rw [hstep]
    apply ih
    apply addVisit_balanced
    split_ifs
    · exact addInterval_balanced _ _ _ h
    · exact h

/-- C5: every output row's parallel arrays (`visit_segments`, `dates`,
`ages`, `visit_concept_orders`, `visit_concept_ids`) have length equal to the
`num_of_concepts` summary field, which is the length of `concept_ids`. -/
theorem C5_parallel_arrays (drug_mapping : List (Int × Int))
    (observation_period_id person_id date_of_birth : Int)
    (realVisits : List Visit) (cdm_tables : List DomainTable) :
    let out := _process_observation_period drug_mapping observation_period_id
      person_id date_of_birth realVisits cdm_tables
    out.visit_segments.length = out.num_of_concepts ∧
    out.dates.length = out.num_of_concepts ∧
    out.ages.length = out.num_of_concepts ∧
    out.visit_concept_orders.length = out.num_of_concepts ∧
    out.visit_concept_ids.length = out.num_of_concepts ∧
    out.num_of_concepts = out.concept_ids.length := by
  intro out
  have hb := buildLoop_balanced date_of_birth
    (group_by_visit true true 0 realVisits (cdm_tables.map (fun t =>
      if t.name == "drug_exposure" then
        { t with events := mapDrugsToIngredients drug_mapping t.events }
      else t))) 0 0 emptySeqState ⟨rfl, rfl, rfl, rfl, rfl⟩
  obtain ⟨h1, h2, h3, h4, h5⟩ := hb
  exact ⟨h1, h2, h3, h4, h5, rfl⟩

/-- Modelled from the spec (§4.5, §8): the expected visit-segment sequence —
for the visit of 1-based rank `r`, an interval token with segment 0 precedes
it when `r > 1`, and every token of the visit block (visit-start marker,
event tokens, visit-end marker) carries segment `(r % 2) + 1`. -/
def segmentsSpec : List VisitData → Nat → List Int
  | [], _ => []
  | vd :: vds, rank =>
    (if rank + 1 > 1 then [0] else []) ++
    List.replicate
      ((sortEvents (union_domain_tables vd.cdm_tables)).length + 2)
      (Int.ofNat ((rank + 1) % 2) + 1) ++
    segmentsSpec vds (rank + 1)

/-- Modelled from the spec (§4.5): the expected visit-concept-order sequence —
`r + 1` for the interval token inserted before the visit of rank `r`, and `r`
for every token of the visit block. -/
def ordersSpec : List VisitData → Nat → List Int
  | [], _ => []
  | vd :: vds, rank =>
    (if rank + 1 > 1 then [Int.ofNat (rank + 1) + 1] else []) ++
    List.replicate
      ((sortEvents (union_domain_tables vd.cdm_tables)).length + 2)
      (Int.ofNat (rank + 1)) ++
    ordersSpec vds (rank + 1)

lemma addInterval_segments (r : Nat) (gap : Int) (s : SeqState) :
    (addInterval r gap s).visit_segments = s.visit_segments ++ [0] := rfl

lemma addInterval_orders (r : Nat) (gap : Int) (s : SeqState) :
    (addInterval r gap s).visit_concept_orders
      = s.visit_concept_orders ++ [Int.ofNat r + 1] := rfl

lemma addVisit_segments (dob : Int) (r : Nat) (vd : VisitData) (s : SeqState) :
    (addVisit dob r vd s).visit_segments = s.visit_segments ++
      List.replicate ((sortEvents (union_domain_tables vd.cdm_tables)).length + 2)
        (Int.ofNat (r % 2) + 1) := rfl

lemma addVisit_orders (dob : Int) (r : Nat) (vd : VisitData) (s : SeqState) :
    (addVisit dob r vd s).visit_concept_orders = s.visit_concept_orders ++
      List.replicate ((sortEvents (union_domain_tables vd.cdm_tables)).length + 2)
        (Int.ofNat r) := rfl

lemma buildLoop_segments_orders (dob : Int) : ∀ (vds : List VisitData)
    (rank : Nat) (prev : Int) (s : SeqState),
    (buildLoop dob vds rank prev s).visit_segments
      = s.visit_segments ++ segmentsSpec vds rank ∧
    (buildLoop dob vds rank prev s).visit_concept_orders
      = s.visit_concept_orders ++ ordersSpec vds rank := by
  intro vds
  induction vds with
  | nil => intro rank prev s; simp [buildLoop, segmentsSpec, ordersSpec]
  | cons vd rest ih =>
    intro rank prev s
    have hstep : buildLoop dob (vd :: rest) rank prev s
        = buildLoop dob rest (rank + 1) vd.visit.visit_end_date
          (addVisit dob (rank + 1) vd
            (if rank + 1 > 1 then
              addInterval (rank + 1) (vd.visit.visit_start_date - prev) s
            else s)) := rfl
    rw [hstep]
    obtain ⟨ihs, iho⟩ := ih (rank + 1) vd.visit.visit_end_date
      (addVisit dob (rank + 1) vd
        (if rank + 1 > 1 then
          addInterval (rank + 1) (vd.visit.visit_start_date - prev) s
        else s))
    constructor
    · rw [ihs, addVisit_segments]
      by_cases hr : rank + 1 > 1
      · rw [if_pos hr]
        rw [addInterval_segments]
        rw [segmentsSpec, if_pos hr]
        simp [List.append_assoc]
      · rw [if_neg hr]
        rw [segmentsSpec, if_neg hr]
        simp [List.append_assoc]
    · rw [iho, addVisit_orders]
      by_cases hr : rank + 1 > 1
      · rw [if_pos hr]
        rw [addInterval_orders]
        rw [ordersSpec, if_pos hr]
        simp [List.append_assoc]
      · rw [if_neg hr]
        rw [ordersSpec, if_neg hr]
        simp [List.append_assoc]

/-- C6: in every output row, every token of the visit of 1-based rank `r`
(its visit-start marker, event tokens and visit-end marker) has visit
segment `(r % 2) + 1` and visit-concept-order `r`, while every inter-visit
interval token has segment 0 (and order `r + 1`); and the segment values of
successive ranks alternate strictly between 1 and 2. -/
theorem C6_segment_alternation (drug_mapping : List (Int × Int))
    (observation_period_id person_id date_of_birth : Int)
    (realVisits : List Visit) (cdm_tables : List DomainTable) :
    let out := _process_observation_period drug_mapping observation_period_id
      person_id date_of_birth realVisits cdm_tables
    let vds := group_by_visit true true 0 realVisits (cdm_tables.map (fun t =>
      if t.name == "drug_exposure" then
        { t with events := mapDrugsToIngredients drug_mapping t.events }
      else t))
    out.visit_segments = segmentsSpec vds 0 ∧
    out.visit_concept_orders = ordersSpec vds 0 ∧
    (∀ r : Nat, (Int.ofNat (r % 2) + 1 = 1 ∨ Int.ofNat (r % 2) + 1 = 2) ∧
      Int.ofNat ((r + 1) % 2) + 1 ≠ Int.ofNat ((r + 2) % 2) + 1) := by
  intro out vds
  have h := buildLoop_segments_orders date_of_birth vds 0 0 emptySeqState
  refine ⟨?_, ?_, ?_⟩
  · show (buildLoop date_of_birth vds 0 0 emptySeqState).visit_segments
      = segmentsSpec vds 0
    rw [h.1]
    rfl
  · show (buildLoop date_of_birth vds 0 0 emptySeqState).visit_concept_orders
      = ordersSpec vds 0
    rw [h.2]
    rfl
  · intro r
    constructor
    · rw [Int.ofNat_eq_natCast]
      omega
    · rw [Int.ofNat_eq_natCast, Int.ofNat_eq_natCast]
      omega

lemma mapDrugs_mem (mapping : List (Int × Int)) (drugs : List Event)
    (e : Event) :
    e ∈ mapDrugsToIngredients mapping drugs ↔
      ∃ d ∈ drugs, ∃ m ∈ mapping, m.1 = d.concept_id ∧
        e = { d with concept_id := m.2 } := by
  unfold mapDrugsToIngredients
  simp only [List.mem_flatMap, List.mem_map, List.mem_filter, beq_iff_eq]
  constructor
  · rintro ⟨d, hd, m, ⟨hm, hmc⟩, he⟩
    exact ⟨d, hd, m, hm, hmc, he.symm⟩
  · rintro ⟨d, hd, m, hm, hmc, he⟩
    exact ⟨d, hd, m, ⟨hm, hmc⟩, he.symm⟩

lemma mapDrugs_drop (mapping : List (Int × Int)) (pre post : List Event)
    (e : Event) (h : ∀ m ∈ mapping, m.1 ≠ e.concept_id) :
    mapDrugsToIngredients mapping (pre ++ e :: post)
      = mapDrugsToIngredients mapping (pre ++ post) := by
  have hfil : mapping.filter (fun m => m.1 == e.concept_id) = [] := by
    rw [List.filter_eq_nil_iff]
    intro m hm
    simpa using h m hm
  simp only [mapDrugsToIngredients, List.flatMap_append, List.flatMap_cons,
    hfil, List.map_nil, List.nil_append]

lemma process_obs_eq_of_map_eq (drug_mapping : List (Int × Int))
    (observation_period_id person_id date_of_birth : Int)
    (realVisits : List Visit) (t1 t2 : List DomainTable)
    (h : t1.map (fun t =>
        if t.name == "drug_exposure" then
          { t with events := mapDrugsToIngredients drug_mapping t.events }
        else t)
      = t2.map (fun t =>
        if t.name == "drug_exposure" then
          { t with events := mapDrugsToIngredients drug_mapping t.events }
        else t)) :
    _process_observation_period drug_mapping observation_period_id person_id
      date_of_birth realVisits t1
    = _process_observation_period drug_mapping observation_period_id person_id
      date_of_birth realVisits t2 := by
  unfold _process_observation_period
  rw [h]

/-- C8: the drug remap is the inner join — an output drug event exists exactly
when some input drug event and some mapping entry share the drug concept id,
and then carries the ingredient concept id — and a drug event whose concept id
has no mapping entry is dropped: the whole output row is identical to the one
produced without that event. -/
theorem C8_drug_inner_join :
    (∀ (mapping : List (Int × Int)) (drugs : List Event) (e : Event),
      e ∈ mapDrugsToIngredients mapping drugs ↔
        ∃ d ∈ drugs, ∃ m ∈ mapping, m.1 = d.concept_id ∧
          e = { d with concept_id := m.2 }) ∧
    (∀ (drug_mapping : List (Int × Int))
       (observation_period_id person_id date_of_birth : Int)
       (realVisits : List Visit) (hv : Bool) (pre post : List Event)
       (before after : List DomainTable) (e : Event),
      (∀ m ∈ drug_mapping, m.1 ≠ e.concept_id) →
      _process_observation_period drug_mapping observation_period_id person_id
        date_of_birth realVisits
        (before ++ DomainTable.mk "drug_exposure" hv (pre ++ e :: post) :: after)
      = _process_observation_period drug_mapping observation_period_id person_id
        date_of_birth realVisits
        (before ++ DomainTable.mk "drug_exposure" hv (pre ++ post) :: after)) := by
  constructor
  · exact mapDrugs_mem
  · intro drug_mapping observation_period_id person_id date_of_birth realVisits
      hv pre post before after e he
    apply process_obs_eq_of_map_eq
    rw [List.map_append, List.map_append, List.map_cons, List.map_cons]
    have hfe : (if ("drug_exposure" : String) == "drug_exposure" then
          DomainTable.mk "drug_exposure" hv
            (mapDrugsToIngredients drug_mapping (pre ++ e :: post))
        else DomainTable.mk "drug_exposure" hv (pre ++ e :: post))
        = (if ("drug_exposure" : String) == "drug_exposure" then
          DomainTable.mk "drug_exposure" hv
            (mapDrugsToIngredients drug_mapping (pre ++ post))
        else DomainTable.mk "drug_exposure" hv (pre ++ post)) := by
      have hc : (("drug_exposure" : String) == "drug_exposure") = true := rfl
      rw [if_pos hc, if_pos hc, mapDrugs_drop drug_mapping pre post e he]
    exact congrArg₂ (fun x y => List.map _ before ++ x :: y) hfe rfl

/-- Witness for C8: the mapping sends drug 1 to ingredient 10, so the drug
event with concept id 2 is unmapped and the output row equals the one built
from an empty drug_exposure table. -/
theorem C8_drug_inner_join_witness :
    (∀ m ∈ ([(1, 10)] : List (Int × Int)), m.1 ≠ (2 : Int)) ∧
    _process_observation_period [(1, 10)] 7 3 0 []
      [DomainTable.mk "drug_exposure" true [Event.mk none 2 5]]
    = _process_observation_period [(1, 10)] 7 3 0 []
      [DomainTable.mk "drug_exposure" true []] :=
  ⟨by decide,
    C8_drug_inner_join.2 [(1, 10)] 7 3 0 [] true [] [] [] []
      (Event.mk none 2 5) (by decide)⟩
